import Mathlib

/-!
Verification of the memexfs repository: a WASM document store / query
engine (Rust core, exposed to JS) together with its JS loading layer
(`js/collect.mjs`, `js/loader.mjs`, the recursive loader), and a worker
pool (`pool.mjs` / `worker.mjs`) that replicates the core across worker
threads.

The Rust core itself is not part of the source tree available here, so
the core (DocumentStore, InvertedIndex, QueryEngine, ToolDispatch) is
modelled from the specification.  The JS layer (file collection, the two
loaders, the worker pool, the worker message handler) is embedded from
the JS source files.

Strings are modelled as Lean `String` (sequences of Unicode scalar
values); all string comparisons are implemented over `String.data` so
that every definition is kernel-computable.
-/

/-! ## Basic ordering utilities -/

/-- Comparison of natural numbers as an `Ordering`, kernel-computable. -/
def cmpNat (a b : Nat) : Ordering :=
  if a < b then .lt else if b < a then .gt else .eq

/-- Lexicographic comparison of lists by an element comparison. -/
def listCmp (f : α → α → Ordering) : List α → List α → Ordering
  | [], [] => .eq
  | [], _ :: _ => .lt
  | _ :: _, [] => .gt
  | a :: as, b :: bs =>
    match f a b with
    | .eq => listCmp f as bs
    | o => o

/-- Code-point comparison of two characters. -/
def charCmp (a b : Char) : Ordering := cmpNat a.toNat b.toNat

/-- Code-point lexicographic comparison of strings.  This is the order in
which the Rust core sorts paths (UTF-8 byte order coincides with scalar
value order), and also models the JS default `Array.prototype.sort` on
strings for the Basic Multilingual Plane. -/
def byteCmp (a b : String) : Ordering := listCmp charCmp a.data b.data

/-- Non-strict code-point lexicographic order on strings. -/
def byteLe (a b : String) : Prop := byteCmp a b ≠ .gt

/-- Strict code-point lexicographic order on strings. -/
def byteLt (a b : String) : Prop := byteCmp a b = .lt

instance byteLe.dec : DecidableRel byteLe := fun a b => by
  unfold byteLe; infer_instance

instance byteLt.dec : DecidableRel byteLt := fun a b => by
  unfold byteLt; infer_instance

theorem cmpNat_eq_iff {a b : Nat} : cmpNat a b = .eq ↔ a = b := by
  unfold cmpNat
  by_cases h₁ : a < b
  · simp only [if_pos h₁]
    constructor
    · intro h; exact absurd h (by decide)
    · intro h; omega
  · by_cases h₂ : b < a
    · simp only [if_neg h₁, if_pos h₂]
      constructor
      · intro h; exact absurd h (by decide)
      · intro h; omega
    · simp only [if_neg h₁, if_neg h₂]
      constructor
      · intro _; omega
      · intro _; trivial

theorem cmpNat_lt_iff {a b : Nat} : cmpNat a b = .lt ↔ a < b := by
  unfold cmpNat
  by_cases h₁ : a < b
  · simp [h₁]
  · by_cases h₂ : b < a <;> simp [h₁, h₂]

theorem cmpNat_gt_iff {a b : Nat} : cmpNat a b = .gt ↔ b < a := by
  unfold cmpNat
  by_cases h₁ : a < b
  · simp [h₁]; omega
  · by_cases h₂ : b < a <;> simp [h₁, h₂]

theorem cmpNat_swap (a b : Nat) : (cmpNat a b).swap = cmpNat b a := by
  unfold cmpNat
  rcases Nat.lt_trichotomy a b with h | h | h
  · simp [h, Nat.lt_asymm h, Ordering.swap]
  · simp [h, Nat.lt_irrefl, Ordering.swap]
  · simp [h, Nat.lt_asymm h, Ordering.swap]

theorem listCmp_swap (f : α → α → Ordering)
    (hf : ∀ a b, (f a b).swap = f b a) :
    ∀ l₁ l₂ : List α, (listCmp f l₁ l₂).swap = listCmp f l₂ l₁
  | [], [] => rfl
  | [], _ :: _ => rfl
  | _ :: _, [] => rfl
  | a :: as, b :: bs => by
    have h := hf a b
    cases hab : f a b with
    | eq =>
      have hba : f b a = .eq := by rw [← h, hab]; rfl
      simp only [listCmp, hab, hba]
      exact listCmp_swap f hf as bs
    | lt =>
      have hba : f b a = .gt := by rw [← h, hab]; rfl
      simp [listCmp, hab, hba, Ordering.swap]
    | gt =>
      have hba : f b a = .lt := by rw [← h, hab]; rfl
      simp [listCmp, hab, hba, Ordering.swap]

theorem listCmp_eq_iff (f : α → α → Ordering)
    (hf : ∀ a b, f a b = .eq ↔ a = b) :
    ∀ l₁ l₂ : List α, listCmp f l₁ l₂ = .eq ↔ l₁ = l₂
  | [], [] => by simp [listCmp]
  | [], _ :: _ => by simp [listCmp]
  | _ :: _, [] => by simp [listCmp]
  | a :: as, b :: bs => by
    cases hab : f a b with
    | eq =>
      have : a = b := (hf a b).mp hab
      subst this
      simp only [listCmp, hab]
      rw [listCmp_eq_iff f hf as bs]
      simp
    | lt =>
      have hne : ¬ a = b := fun h => by simp [(hf a b).mpr h] at hab
      simp [listCmp, hab, hne]
    | gt =>
      have hne : ¬ a = b := fun h => by simp [(hf a b).mpr h] at hab
      simp [listCmp, hab, hne]

theorem listCmp_trans_lt (f : α → α → Ordering)
    (heq : ∀ a b, f a b = .eq ↔ a = b)
    (htr : ∀ a b c, f a b = .lt → f b c = .lt → f a c = .lt) :
    ∀ l₁ l₂ l₃ : List α, listCmp f l₁ l₂ = .lt → listCmp f l₂ l₃ = .lt →
      listCmp f l₁ l₃ = .lt
  | [], _, _ :: _ => by intros; simp [listCmp]
  | [], [], [] => by intro h _; exact absurd h (by simp [listCmp])
  | [], _ :: _, [] => by intro _ h; exact absurd h (by simp [listCmp])
  | _ :: _, [], _ => by intro h _; exact absurd h (by simp [listCmp])
  | _ :: _, _ :: _, [] => by intro _ h; exact absurd h (by simp [listCmp])
  | a :: as, b :: bs, c :: cs => by
    intro h₁ h₂
    simp only [listCmp] at h₁ h₂ ⊢
    cases hab : f a b with
    | gt => rw [hab] at h₁; simp at h₁
    | lt =>
      cases hbc : f b c with
      | gt => rw [hbc] at h₂; simp at h₂
      | lt => rw [htr a b c hab hbc]
      | eq =>
        have : b = c := (heq b c).mp hbc
        subst this
        rw [hab]
    | eq =>
      have : a = b := (heq a b).mp hab
      subst this
      rw [hab] at h₁
      cases hac : f a c with
      | gt => rw [hac] at h₂; simp at h₂
      | lt => rfl
      | eq =>
        rw [hac] at h₂
        exact listCmp_trans_lt f heq htr as bs cs h₁ h₂

theorem charCmp_eq_iff {a b : Char} : charCmp a b = .eq ↔ a = b := by
  unfold charCmp
  rw [cmpNat_eq_iff]
  constructor
  · intro h
    apply Char.eq_of_val_eq
    apply UInt32.eq_of_val_eq
    apply Fin.eq_of_val_eq
    exact h
  · intro h; rw [h]

theorem charCmp_trans_lt {a b c : Char} :
    charCmp a b = .lt → charCmp b c = .lt → charCmp a c = .lt := by
  unfold charCmp
  rw [cmpNat_lt_iff, cmpNat_lt_iff, cmpNat_lt_iff]
  omega

theorem charCmp_swap (a b : Char) : (charCmp a b).swap = charCmp b a :=
  cmpNat_swap _ _

theorem byteCmp_eq_iff {a b : String} : byteCmp a b = .eq ↔ a = b := by
  unfold byteCmp
  rw [listCmp_eq_iff charCmp (fun _ _ => charCmp_eq_iff)]
  constructor
  · intro h; exact String.ext h
  · intro h; rw [h]

theorem byteCmp_swap (a b : String) : (byteCmp a b).swap = byteCmp b a :=
  listCmp_swap charCmp charCmp_swap _ _

theorem byteCmp_trans_lt {a b c : String} :
    byteCmp a b = .lt → byteCmp b c = .lt → byteCmp a c = .lt :=
  listCmp_trans_lt charCmp (fun _ _ => charCmp_eq_iff)
    (fun _ _ _ => charCmp_trans_lt) _ _ _

theorem byteLe_total (a b : String) : byteLe a b ∨ byteLe b a := by
  unfold byteLe
  by_cases h : byteCmp a b = .gt
  · right
    have hs := byteCmp_swap a b
    rw [h] at hs
    intro hba
    rw [hba] at hs
    exact absurd hs (by decide)
  · left; exact h

theorem byteLe_trans {a b c : String} :
    byteLe a b → byteLe b c → byteLe a c := by
  unfold byteLe
  intro h₁ h₂ hac
  have hca : byteCmp c a = .lt := by
    have hs := byteCmp_swap a c
    rw [hac] at hs
    simpa [Ordering.swap] using hs.symm
  cases hab : byteCmp a b with
  | gt => exact h₁ hab
  | eq =>
    have : a = b := byteCmp_eq_iff.mp hab
    subst this
    exact h₂ hac
  | lt =>
    cases hbc : byteCmp b c with
    | gt => exact h₂ hbc
    | eq =>
      have : b = c := byteCmp_eq_iff.mp hbc
      subst this
      rw [hab] at hac
      exact absurd hac (by decide)
    | lt =>
      have h := byteCmp_trans_lt hab hbc
      rw [hac] at h
      exact absurd h (by decide)

instance : IsTotal String byteLe := ⟨byteLe_total⟩
instance : IsTrans String byteLe := ⟨fun _ _ _ => byteLe_trans⟩

theorem byteLt_asymm {a b : String} : byteLt a b → ¬ byteLt b a := by
  unfold byteLt
  intro h₁ h₂
  have hs := byteCmp_swap a b
  rw [h₁, h₂] at hs
  exact absurd hs (by decide)

instance : IsAntisymm String byteLt :=
  ⟨fun _ _ h₁ h₂ => absurd h₁ (byteLt_asymm h₂)⟩

instance instDecEqExcept {ε α : Type} [DecidableEq ε] [DecidableEq α] :
    DecidableEq (Except ε α)
  | .error a, .error b =>
    if h : a = b then .isTrue (by rw [h])
    else .isFalse (fun he => h (by cases he; rfl))
  | .error _, .ok _ => .isFalse (fun he => Except.noConfusion he)
  | .ok _, .error _ => .isFalse (fun he => Except.noConfusion he)
  | .ok a, .ok b =>
    if h : a = b then .isTrue (by rw [h])
    else .isFalse (fun he => h (by cases he; rfl))

theorem byteLe_of_not_gt {a b : String} (h : byteCmp a b ≠ .gt) : byteLe a b := h

theorem byteLt_or_eq_of_le {a b : String} (h : byteLe a b) :
    byteLt a b ∨ a = b := by
  unfold byteLe at h
  unfold byteLt
  cases hab : byteCmp a b with
  | lt => exact Or.inl rfl
  | eq => exact Or.inr (byteCmp_eq_iff.mp hab)
  | gt => exact absurd hab h

/-! ## A JSON fragment

The Rust core serializes structured results (grep results, ls listings,
tool definitions) to JSON strings, and the worker deserializes them with
the host's `JSON.parse`.  We model the JSON fragment the core emits:
strings, natural numbers, arrays and objects.  Mutual inductives are
used (instead of nested `List`) so that all recursions are structural
and kernel-computable. -/

mutual
inductive Json where
  | str (s : String)
  | num (n : Nat)
  | arr (items : JsonItems)
  | obj (members : JsonMembers)
deriving DecidableEq

inductive JsonItems where
  | nil
  | cons (v : Json) (tl : JsonItems)
deriving DecidableEq

inductive JsonMembers where
  | nil
  | cons (key : String) (v : Json) (tl : JsonMembers)
deriving DecidableEq
end

/-- Convert a Lean list of values to a `JsonItems` sequence. -/
def JsonItems.ofList : List Json → JsonItems
  | [] => .nil
  | v :: vs => .cons v (JsonItems.ofList vs)

/-- The opening brace character, U+007B. -/
def lbrace : Char := Char.ofNat 123

/-- The closing brace character, U+007D. -/
def rbrace : Char := Char.ofNat 125

/-- JSON string escaping of a single character. -/
def escChar (c : Char) : List Char :=
  if c = '"' then ['\\', '"']
  else if c = '\\' then ['\\', '\\']
  else if c = '\n' then ['\\', 'n']
  else if c = '\t' then ['\\', 't']
  else if c = '\r' then ['\\', 'r']
  else [c]

/-- JSON string escaping of a character sequence. -/
def escList : List Char → List Char
  | [] => []
  | c :: cs => escChar c ++ escList cs

/-- Rendering of a JSON string literal (quotes plus escaped body). -/
def renderStr (s : String) : List Char := '"' :: (escList s.data ++ ['"'])

/-- Decimal digits of a natural number, most significant first, with
explicit fuel so that the recursion is structural. -/
def digitsCore : Nat → Nat → List Char
  | 0, _ => []
  | fuel + 1, n =>
    if n < 10 then [Char.ofNat (48 + n)]
    else digitsCore fuel (n / 10) ++ [Char.ofNat (48 + n % 10)]

/-- Decimal rendering of a natural number. -/
def digitsOf (n : Nat) : List Char := digitsCore (n + 1) n

mutual
/-- Render a JSON value to a character sequence. -/
def renderJson : Json → List Char
  | .str s => renderStr s
  | .num n => digitsOf n
  | .arr items => '[' :: (renderItems items ++ [']'])
  | .obj ms => lbrace :: (renderMembers ms ++ [rbrace])

/-- Render the comma-separated items of a JSON array. -/
def renderItems : JsonItems → List Char
  | .nil => []
  | .cons v .nil => renderJson v
  | .cons v tl => renderJson v ++ ',' :: renderItems tl

/-- Render the comma-separated members of a JSON object. -/
def renderMembers : JsonMembers → List Char
  | .nil => []
  | .cons k v .nil => renderStr k ++ ':' :: renderJson v
  | .cons k v tl => renderStr k ++ ':' :: renderJson v ++ ',' :: renderMembers tl
end

/-- Unescape a single escaped character. -/
def unescChar (c : Char) : Option Char :=
  if c = '"' then some '"'
  else if c = '\\' then some '\\'
  else if c = 'n' then some '\n'
  else if c = 't' then some '\t'
  else if c = 'r' then some '\r'
  else none

/-- Parse the body of a JSON string literal after the opening quote,
accumulating parsed characters in reverse.  The `esc` flag records that
the previous character was an unconsumed backslash. -/
def parseStrBody : List Char → Bool → List Char → Option (String × List Char)
  | [], _, _ => none
  | c :: rest, true, acc =>
    match unescChar c with
    | some u => parseStrBody rest false (u :: acc)
    | none => none
  | c :: rest, false, acc =>
    if c = '"' then some (⟨acc.reverse⟩, rest)
    else if c = '\\' then parseStrBody rest true acc
    else parseStrBody rest false (c :: acc)

/-- Consume a maximal run of decimal digits, most significant first. -/
def parseNatBody : List Char → Nat → Nat × List Char
  | [], acc => (acc, [])
  | c :: rest, acc =>
    if c.isDigit then parseNatBody rest (acc * 10 + (c.toNat - 48))
    else (acc, c :: rest)

mutual
/-- Parse a JSON value; `fuel` bounds the nesting, making the mutual
recursion structural. -/
def parseVal : Nat → List Char → Option (Json × List Char)
  | 0, _ => none
  | fuel + 1, cs =>
    match cs with
    | [] => none
    | c :: rest =>
      if c = '"' then
        match parseStrBody rest false [] with
        | some (s, rest₁) => some (.str s, rest₁)
        | none => none
      else if c = '[' then
        match rest with
        | [] => none
        | r :: rest₁ =>
          if r = ']' then some (.arr .nil, rest₁)
          else
            match parseItems fuel (r :: rest₁) with
            | some (items, rest₂) => some (.arr items, rest₂)
            | none => none
      else if c = lbrace then
        match rest with
        | [] => none
        | r :: rest₁ =>
          if r = rbrace then some (.obj .nil, rest₁)
          else
            match parseMembers fuel (r :: rest₁) with
            | some (ms, rest₂) => some (.obj ms, rest₂)
            | none => none
      else if c.isDigit then
        match parseNatBody (c :: rest) 0 with
        | (n, rest₁) => some (.num n, rest₁)
      else none

/-- Parse the items of a JSON array after the opening bracket, consuming
the closing bracket. -/
def parseItems : Nat → List Char → Option (JsonItems × List Char)
  | 0, _ => none
  | fuel + 1, cs =>
    match parseVal fuel cs with
    | none => none
    | some (v, rest) =>
      match rest with
      | [] => none
      | r :: rest₁ =>
        if r = ',' then
          match parseItems fuel rest₁ with
          | some (vs, rest₂) => some (.cons v vs, rest₂)
          | none => none
        else if r = ']' then some (.cons v .nil, rest₁)
        else none

/-- Parse the members of a JSON object after the opening brace, consuming
the closing brace. -/
def parseMembers : Nat → List Char → Option (JsonMembers × List Char)
  | 0, _ => none
  | fuel + 1, cs =>
    match cs with
    | [] => none
    | c :: cs₁ =>
      if c = '"' then
        match parseStrBody cs₁ false [] with
        | none => none
        | some (k, rest) =>
          match rest with
          | [] => none
          | r :: rest₁ =>
            if r = ':' then
              match parseVal fuel rest₁ with
              | none => none
              | some (v, rest₂) =>
                match rest₂ with
                | [] => none
                | r₂ :: rest₃ =>
                  if r₂ = ',' then
                    match parseMembers fuel rest₃ with
                    | some (ms, rest₄) => some (.cons k v ms, rest₄)
                    | none => none
                  else if r₂ = rbrace then some (.cons k v .nil, rest₃)
                  else none
            else none
      else none
end

/-- Model of the host's `JSON.parse` restricted to the JSON fragment the
core emits: parse the whole string as a single JSON value. -/
def jsonParse (s : String) : Option Json :=
  match parseVal (s.data.length + 1) s.data with
  | some (v, []) => some v
  | _ => none

/-- Render a JSON value to a string, modelling the core's serialization. -/
def jsonRender (v : Json) : String := ⟨renderJson v⟩

/-! ## Parser-renderer roundtrip -/

/-- A character list that does not begin with a decimal digit (so a
maximal-digit-run parse that ends right before it is unambiguous). -/
def noDigitHead : List Char → Prop
  | [] => True
  | c :: _ => c.isDigit = false

theorem digit_ne {c d : Char} (hc : c.isDigit = true) (hd : d.isDigit = false) :
    c ≠ d := by
  intro he
  rw [he, hd] at hc
  cases hc

theorem parseStrBody_esc :
    ∀ (cs acc rest : List Char),
      parseStrBody (escList cs ++ '"' :: rest) false acc =
        some (⟨acc.reverse ++ cs⟩, rest)
  | [], acc, rest => by
    show parseStrBody ([] ++ '"' :: rest) false acc = _
    rw [List.nil_append, List.append_nil]
    rfl
  | c :: cs, acc, rest => by
    by_cases h1 : c = '"'
    · subst h1
      simp [escList, escChar, parseStrBody, unescChar,
        parseStrBody_esc cs ('"' :: acc) rest, List.append_assoc]
    · by_cases h2 : c = '\\'
      · subst h2
        simp [escList, escChar, parseStrBody, unescChar,
          parseStrBody_esc cs ('\\' :: acc) rest, List.append_assoc]
      · by_cases h3 : c = '\n'
        · subst h3
          simp [escList, escChar, parseStrBody, unescChar,
            parseStrBody_esc cs ('\n' :: acc) rest, List.append_assoc]
        · by_cases h4 : c = '\t'
          · subst h4
            simp [escList, escChar, parseStrBody, unescChar,
              parseStrBody_esc cs ('\t' :: acc) rest, List.append_assoc]
          · by_cases h5 : c = '\r'
            · subst h5
              simp [escList, escChar, parseStrBody, unescChar,
                parseStrBody_esc cs ('\r' :: acc) rest, List.append_assoc]
            · simp [escList, escChar, h1, h2, h3, h4, h5, parseStrBody,
                parseStrBody_esc cs (c :: acc) rest, List.append_assoc]

theorem ofNat_digit_isDigit {n : Nat} (h : n < 10) :
    (Char.ofNat (48 + n)).isDigit = true := by
  interval_cases n <;> decide

theorem ofNat_digit_toNat {n : Nat} (h : n < 10) :
    (Char.ofNat (48 + n)).toNat = 48 + n := by
  interval_cases n <;> decide

theorem digitsCore_all_digits :
    ∀ fuel n, n < fuel → ∀ c ∈ digitsCore fuel n, c.isDigit = true := by
  intro fuel
  induction fuel with
  | zero => intro n h; omega
  | succ fuel ih =>
    intro n h c hc
    by_cases h10 : n < 10
    · simp only [digitsCore, if_pos h10, List.mem_singleton] at hc
      subst hc
      exact ofNat_digit_isDigit h10
    · simp only [digitsCore, if_neg h10, List.mem_append, List.mem_singleton] at hc
      rcases hc with hc | hc
      · exact ih (n / 10) (by omega) c hc
      · subst hc
        exact ofNat_digit_isDigit (Nat.mod_lt _ (by omega))

theorem digitsCore_ne_nil {fuel n : Nat} (h : n < fuel) :
    digitsCore fuel n ≠ [] := by
  cases fuel with
  | zero => omega
  | succ fuel =>
    by_cases h10 : n < 10
    · simp [digitsCore, if_pos h10]
    · simp [digitsCore, if_neg h10]

theorem parseNatBody_stop : ∀ rest acc, noDigitHead rest →
    parseNatBody rest acc = (acc, rest)
  | [], acc, _ => rfl
  | c :: t, acc, h => by
    simp only [noDigitHead] at h
    simp [parseNatBody, h]

theorem parseNatBody_digits :
    ∀ ds rest acc, (∀ c ∈ ds, c.isDigit = true) → noDigitHead rest →
      parseNatBody (ds ++ rest) acc =
        (ds.foldl (fun a c => a * 10 + (c.toNat - 48)) acc, rest)
  | [], rest, acc, _, hrest => by
    simp [parseNatBody_stop rest acc hrest]
  | d :: ds, rest, acc, hds, hrest => by
    have hd : d.isDigit = true := hds d (List.mem_cons_self d ds)
    simp only [List.cons_append, parseNatBody, hd, if_pos, List.foldl_cons]
    exact parseNatBody_digits ds rest _ (fun c hc => hds c (List.mem_cons_of_mem d hc)) hrest

theorem digitsCore_foldl :
    ∀ fuel n acc, n < fuel →
      (digitsCore fuel n).foldl (fun a c => a * 10 + (c.toNat - 48)) acc =
        acc * 10 ^ (digitsCore fuel n).length + n := by
  intro fuel
  induction fuel with
  | zero => intro n acc h; omega
  | succ fuel ih =>
    intro n acc h
    by_cases h10 : n < 10
    · simp only [digitsCore, if_pos h10, List.foldl_cons, List.foldl_nil,
        List.length_singleton, pow_one]
      rw [ofNat_digit_toNat h10]
      omega
    · simp only [digitsCore, if_neg h10, List.foldl_append, List.foldl_cons,
        List.foldl_nil, List.length_append, List.length_singleton]
      rw [ih (n / 10) acc (by omega)]
      rw [ofNat_digit_toNat (Nat.mod_lt _ (by omega))]
      have hpow : 10 ^ ((digitsCore fuel (n / 10)).length + 1) =
          10 ^ (digitsCore fuel (n / 10)).length * 10 := by
        rw [pow_succ]
      rw [hpow]
      have := Nat.div_add_mod n 10
      ring_nf
      omega

theorem parseNatBody_digitsOf (n : Nat) (rest : List Char) (h : noDigitHead rest) :
    parseNatBody (digitsOf n ++ rest) 0 = (n, rest) := by
  unfold digitsOf
  rw [parseNatBody_digits _ _ _ (digitsCore_all_digits _ _ (by omega)) h]
  rw [digitsCore_foldl _ _ _ (by omega)]
  simp

/-! Size measures used as fuel bounds for the parser. -/

mutual
def jsize : Json → Nat
  | .str _ => 1
  | .num _ => 1
  | .arr items => 1 + jsizeItems items
  | .obj ms => 1 + jsizeMembers ms

def jsizeItems : JsonItems → Nat
  | .nil => 0
  | .cons v tl => 1 + jsize v + jsizeItems tl

def jsizeMembers : JsonMembers → Nat
  | .nil => 0
  | .cons _ v tl => 1 + jsize v + jsizeMembers tl
end

theorem jsize_pos (v : Json) : 1 ≤ jsize v := by
  cases v <;> simp [jsize]

theorem renderJson_head (v : Json) :
    ∃ c cs, renderJson v = c :: cs ∧
      (c = '"' ∨ c = '[' ∨ c = lbrace ∨ c.isDigit = true) := by
  cases v with
  | str s => exact ⟨'"', _, rfl, Or.inl rfl⟩
  | num n =>
    cases hd : digitsOf n with
    | nil => exact absurd hd (digitsCore_ne_nil (by omega))
    | cons c cs =>
      refine ⟨c, cs, ?_, Or.inr (Or.inr (Or.inr ?_))⟩
      · simp [renderJson, hd]
      · exact digitsCore_all_digits (n + 1) n (by omega) c (by rw [show digitsCore (n+1) n = digitsOf n from rfl, hd]; exact List.mem_cons_self c cs)
  | arr items => exact ⟨'[', _, rfl, Or.inr (Or.inl rfl)⟩
  | obj ms => exact ⟨lbrace, _, rfl, Or.inr (Or.inr (Or.inl rfl))⟩

theorem renderItems_cons (v : Json) (tl : JsonItems) :
    ∃ R, renderItems (.cons v tl) = renderJson v ++ R := by
  cases tl with
  | nil => exact ⟨[], (List.append_nil _).symm⟩
  | cons v₂ tl₂ => exact ⟨',' :: renderItems (.cons v₂ tl₂), rfl⟩

theorem noDigitHead_nil : noDigitHead [] := trivial

theorem noDigitHead_cons {c : Char} (t : List Char) (h : c.isDigit = false) :
    noDigitHead (c :: t) := h

theorem renderMembers_cons (k : String) (v : Json) (tl : JsonMembers) :
    ∃ R, renderMembers (.cons k v tl) = '"' :: R := by
  cases tl with
  | nil => exact ⟨escList k.data ++ ['"'] ++ ':' :: renderJson v, by
      simp [renderMembers, renderStr, List.append_assoc]⟩
  | cons k₂ v₂ tl₂ => exact ⟨escList k.data ++ ['"'] ++ ':' :: renderJson v ++
      ',' :: renderMembers (.cons k₂ v₂ tl₂), by
      simp [renderMembers, renderStr, List.append_assoc]⟩

theorem parseRoundtrip : ∀ fuel : Nat,
    (∀ v rest, jsize v ≤ fuel → noDigitHead rest →
      parseVal fuel (renderJson v ++ rest) = some (v, rest)) ∧
    (∀ items rest, items ≠ JsonItems.nil → jsizeItems items ≤ fuel →
      parseItems fuel (renderItems items ++ ']' :: rest) = some (items, rest)) ∧
    (∀ ms rest, ms ≠ JsonMembers.nil → jsizeMembers ms ≤ fuel →
      parseMembers fuel (renderMembers ms ++ rbrace :: rest) = some (ms, rest)) := by
  intro fuel
  induction fuel with
  | zero =>
    refine ⟨?_, ?_, ?_⟩
    · intro v rest hsz _
      have := jsize_pos v
      omega
    · intro items rest hne hsz
      cases items with
      | nil => exact absurd rfl hne
      | cons v tl => simp only [jsizeItems] at hsz; omega
    · intro ms rest hne hsz
      cases ms with
      | nil => exact absurd rfl hne
      | cons k v tl => simp only [jsizeMembers] at hsz; omega
  | succ fuel ih =>
    obtain ⟨ihV, ihI, ihM⟩ := ih
    refine ⟨?_, ?_, ?_⟩
    · -- values
      intro v rest hsz hrest
      cases v with
      | str s =>
        have h := parseStrBody_esc s.data [] rest
        simp only [List.reverse_nil, List.nil_append] at h
        show parseVal (fuel + 1) (renderStr s ++ rest) = some (.str s, rest)
        rw [renderStr, List.cons_append, List.append_assoc, List.singleton_append]
        simp only [parseVal, if_pos rfl, h]
        rfl
      | num n =>
        obtain ⟨c, cs, hd, hdig⟩ : ∃ c cs, digitsOf n = c :: cs ∧ c.isDigit = true := by
          cases hd : digitsOf n with
          | nil => exact absurd hd (digitsCore_ne_nil (by omega))
          | cons c cs =>
            refine ⟨c, cs, rfl, ?_⟩
            refine digitsCore_all_digits (n + 1) n (by omega) c ?_
            rw [show digitsCore (n + 1) n = digitsOf n from rfl, hd]
            exact List.mem_cons_self c cs
        have h1 : ¬ c = '"' := digit_ne hdig (by decide)
        have h2 : ¬ c = '[' := digit_ne hdig (by decide)
        have h3 : ¬ c = lbrace := digit_ne hdig (by decide)
        show parseVal (fuel + 1) (digitsOf n ++ rest) = some (.num n, rest)
        rw [hd, List.cons_append]
        simp only [parseVal, if_neg h1, if_neg h2, if_neg h3, hdig, if_pos]
        rw [← List.cons_append, ← hd, parseNatBody_digitsOf n rest hrest]
      | arr items =>
        cases items with
        | nil =>
          show parseVal (fuel + 1) (('[' :: ([] ++ [']'])) ++ rest) = some (.arr .nil, rest)
          simp [parseVal]
        | cons v tl =>
          obtain ⟨R, hR⟩ := renderItems_cons v tl
          obtain ⟨c, cs, hv, hp⟩ := renderJson_head v
          have hcne : ¬ c = ']' := by
            rcases hp with h | h | h | h
            · subst h; decide
            · subst h; decide
            · subst h; decide
            · exact digit_ne h (by decide)
          have hsz' : jsizeItems (.cons v tl) ≤ fuel := by
            simp only [jsize] at hsz; omega
          have hI := ihI (.cons v tl) rest (by simp) hsz'
          show parseVal (fuel + 1)
              (('[' :: (renderItems (.cons v tl) ++ [']'])) ++ rest) =
            some (.arr (.cons v tl), rest)
          rw [List.cons_append, List.append_assoc, List.singleton_append]
          have hshape : renderItems (.cons v tl) ++ ']' :: rest =
              c :: (cs ++ (R ++ ']' :: rest)) := by
            rw [hR, hv]; simp [List.append_assoc]
          rw [hshape]
          simp only [parseVal, if_neg (show ¬ '[' = '"' by decide), if_pos rfl,
            if_neg hcne]
          rw [← hshape, hI]
          rfl
      | obj ms =>
        cases ms with
        | nil =>
          show parseVal (fuel + 1) ((lbrace :: ([] ++ [rbrace])) ++ rest) =
            some (.obj .nil, rest)
          simp [parseVal, lbrace, rbrace]
        | cons k v tl =>
          obtain ⟨R, hR⟩ := renderMembers_cons k v tl
          have hsz' : jsizeMembers (.cons k v tl) ≤ fuel := by
            simp only [jsize] at hsz; omega
          have hM := ihM (.cons k v tl) rest (by simp) hsz'
          show parseVal (fuel + 1)
              ((lbrace :: (renderMembers (.cons k v tl) ++ [rbrace])) ++ rest) =
            some (.obj (.cons k v tl), rest)
          rw [List.cons_append, List.append_assoc, List.singleton_append]
          have hshape : renderMembers (.cons k v tl) ++ rbrace :: rest =
              '"' :: (R ++ rbrace :: rest) := by
            rw [hR]; simp
          rw [hshape]
          simp only [parseVal, if_neg (show ¬ lbrace = '"' by decide),
            if_neg (show ¬ lbrace = '[' by decide), if_pos rfl,
            if_neg (show ¬ '"' = rbrace by decide)]
          rw [← hshape, hM]
          rfl
    · -- array items
      intro items rest hne hsz
      cases items with
      | nil => exact absurd rfl hne
      | cons v tl =>
        have hszv : jsize v ≤ fuel := by
          simp only [jsizeItems] at hsz; omega
        cases tl with
        | nil =>
          show parseItems (fuel + 1) (renderJson v ++ ']' :: rest) =
            some (.cons v .nil, rest)
          simp only [parseItems]
          rw [ihV v (']' :: rest) hszv (noDigitHead_cons rest (by decide))]
          simp
        | cons v₂ tl₂ =>
          have hszt : jsizeItems (.cons v₂ tl₂) ≤ fuel := by
            simp only [jsizeItems] at hsz ⊢; omega
          show parseItems (fuel + 1)
              ((renderJson v ++ ',' :: renderItems (.cons v₂ tl₂)) ++ ']' :: rest) =
            some (.cons v (.cons v₂ tl₂), rest)
          rw [List.append_assoc, List.cons_append]
          simp only [parseItems]
          rw [ihV v _ hszv (noDigitHead_cons _ (by decide))]
          simp only [if_pos rfl]
          rw [ihI (.cons v₂ tl₂) rest (by simp) hszt]
          rfl
    · -- object members
      intro ms rest hne hsz
      cases ms with
      | nil => exact absurd rfl hne
      | cons k v tl =>
        have hszv : jsize v ≤ fuel := by
          simp only [jsizeMembers] at hsz; omega
        cases tl with
        | nil =>
          show parseMembers (fuel + 1)
              ((renderStr k ++ ':' :: renderJson v) ++ rbrace :: rest) =
            some (.cons k v .nil, rest)
          rw [renderStr, List.cons_append, List.cons_append, List.append_assoc,
            List.append_assoc, List.singleton_append]
          have h := parseStrBody_esc k.data []
            (':' :: (renderJson v ++ rbrace :: rest))
          simp only [List.reverse_nil, List.nil_append] at h
          simp only [parseMembers, if_pos rfl, List.cons_append] at h ⊢
          rw [h]
          simp only [if_pos rfl]
          rw [ihV v (rbrace :: rest) hszv (noDigitHead_cons rest (by decide))]
          simp only [if_neg (show ¬ rbrace = ',' by decide), if_pos rfl]
          rfl
        | cons k₂ v₂ tl₂ =>
          have hszt : jsizeMembers (.cons k₂ v₂ tl₂) ≤ fuel := by
            simp only [jsizeMembers] at hsz ⊢; omega
          have h := parseStrBody_esc k.data []
            (':' :: (renderJson v ++
              ',' :: (renderMembers (.cons k₂ v₂ tl₂) ++ rbrace :: rest)))
          simp only [List.reverse_nil, List.nil_append] at h
          rw [show renderMembers (.cons k v (.cons k₂ v₂ tl₂)) ++ rbrace :: rest =
              '"' :: (escList k.data ++ '"' :: ':' :: (renderJson v ++
                ',' :: (renderMembers (.cons k₂ v₂ tl₂) ++ rbrace :: rest)))
            from by
              rw [show renderMembers (.cons k v (.cons k₂ v₂ tl₂)) =
                  (renderStr k ++ ':' :: renderJson v) ++
                    ',' :: renderMembers (.cons k₂ v₂ tl₂) from rfl]
              rw [renderStr]
              simp [List.append_assoc]]
          simp only [parseMembers, if_pos rfl]
          rw [h]
          simp only [if_pos rfl]
          rw [ihV v _ hszv (noDigitHead_cons _ (by decide))]
          simp only [if_pos rfl]
          rw [ihM (.cons k₂ v₂ tl₂) rest (by simp) hszt]
          rfl

mutual
theorem jsize_le_renderLen : ∀ v : Json, jsize v ≤ (renderJson v).length
  | .str s => by simp [jsize, renderJson, renderStr]
  | .num n => by
    have h : digitsOf n ≠ [] := digitsCore_ne_nil (by omega)
    have : 0 < (digitsOf n).length := List.length_pos.mpr h
    simp only [jsize, renderJson]
    omega
  | .arr items => by
    have h := jsizeItems_le_renderLen items
    simp only [jsize, renderJson, List.length_cons, List.length_append,
      List.length_singleton]
    omega
  | .obj ms => by
    have h := jsizeMembers_le_renderLen ms
    simp only [jsize, renderJson, List.length_cons, List.length_append,
      List.length_singleton]
    omega

theorem jsizeItems_le_renderLen :
    ∀ items : JsonItems, jsizeItems items ≤ (renderItems items).length + 1
  | .nil => by simp [jsizeItems]
  | .cons v .nil => by
    have h := jsize_le_renderLen v
    simp only [jsizeItems, jsizeItems.eq_1, renderItems]
    omega
  | .cons v (.cons v₂ tl₂) => by
    have h1 := jsize_le_renderLen v
    have h2 := jsizeItems_le_renderLen (.cons v₂ tl₂)
    simp only [jsizeItems] at h2
    simp only [jsizeItems, renderItems, List.length_append, List.length_cons]
    omega

theorem jsizeMembers_le_renderLen :
    ∀ ms : JsonMembers, jsizeMembers ms ≤ (renderMembers ms).length + 1
  | .nil => by simp [jsizeMembers]
  | .cons k v .nil => by
    have h := jsize_le_renderLen v
    simp only [jsizeMembers, jsizeMembers.eq_1, renderMembers,
      List.length_append, List.length_cons]
    omega
  | .cons k v (.cons k₂ v₂ tl₂) => by
    have h1 := jsize_le_renderLen v
    have h2 := jsizeMembers_le_renderLen (.cons k₂ v₂ tl₂)
    simp only [jsizeMembers] at h2
    simp only [jsizeMembers, renderMembers, List.length_append, List.length_cons]
    omega
end

/-- The modelled `JSON.parse` recovers every JSON value from the
modelled serialization: deserialization of any structured result
delivered by the core yields the original structured value. -/
theorem jsonParse_jsonRender (v : Json) : jsonParse (jsonRender v) = some v := by
  unfold jsonParse jsonRender
  have hdata : (String.mk (renderJson v)).data = renderJson v := rfl
  rw [hdata]
  have hfuel : jsize v ≤ (renderJson v).length + 1 :=
    le_trans (jsize_le_renderLen v) (by omega)
  have h := (parseRoundtrip ((renderJson v).length + 1)).1 v [] hfuel noDigitHead_nil
  rw [List.append_nil] at h
  rw [h]

/-! ## The document store core

Modelled from the spec: the Rust core (DocumentStore, InvertedIndex,
QueryEngine, ToolDispatch of `src/store.rs`, `src/index.rs`,
`src/document.rs`, `src/lib.rs`) is not under the available source tree;
the definitions below follow sections 3 and 4 of the specification. -/

/-- A word character: alphanumeric or underscore (spec glossary). -/
def isWordChar (c : Char) : Bool := c.isAlphanum || c = '_'

/-- Case-fold a character sequence. -/
def lowerChars (cs : List Char) : List Char := cs.map Char.toLower

/-- Modelled from the spec: tokenization into maximal runs of
alphanumeric/underscore characters, case-folded.  `cur` accumulates the
current run in reverse. -/
def tokenizeAux : List Char → List Char → List String
  | [], [] => []
  | [], cur => [⟨cur.reverse⟩]
  | c :: cs, cur =>
    if isWordChar c then tokenizeAux cs (c.toLower :: cur)
    else if cur.isEmpty then tokenizeAux cs []
    else ⟨cur.reverse⟩ :: tokenizeAux cs []

/-- Tokens of one line. -/
def tokenize (line : String) : List String := tokenizeAux line.data []

/-- Split a content string into lines at newline characters; the
terminator is not retained (spec 4.1). -/
def splitLinesAux : List Char → List Char → List String
  | [], cur => [⟨cur.reverse⟩]
  | c :: cs, cur =>
    if c = '\n' then ⟨cur.reverse⟩ :: splitLinesAux cs []
    else splitLinesAux cs (c :: cur)

/-- Lines of a content string. -/
def splitLines (s : String) : List String := splitLinesAux s.data []

/-- One corpus entry (spec 3): path, line-split content, and the integer
id assigned at construction. -/
structure Document where
  id : Nat
  path : String
  lines : List String
deriving DecidableEq

/-- The document store: the ordered document collection (spec 3). -/
structure MemexStore where
  docs : List Document
deriving DecidableEq

/-- Path order on `(path, content)` pairs. -/
def pairLe (a b : String × String) : Prop := byteLe a.1 b.1

instance pairLe.dec : DecidableRel pairLe := fun a b => byteLe.dec a.1 b.1

/-- Modelled from the spec: store construction (spec 4.1) — fails on an
empty corpus, sorts by path to assign deterministic ids, splits each
content into lines. -/
def memexConstruct (pairs : List (String × String)) : Except String MemexStore :=
  if pairs.isEmpty then .error "empty corpus"
  else .ok ⟨(List.insertionSort pairLe pairs).enum.map
    (fun ic => ⟨ic.1, ic.2.1, splitLines ic.2.2⟩)⟩

/-- Number of documents (spec 4.1). -/
def documentCount (st : MemexStore) : Nat := st.docs.length

/-- Modelled from the spec: the inverted index, represented extensionally
by its lookup function — a token maps to the ordered `(documentId,
lineNumber)` occurrences (lineNumber 1-indexed) over all documents
(spec 3, 4.2). -/
def indexLookup (st : MemexStore) (t : String) : List (Nat × Nat) :=
  (st.docs.map (fun d =>
    d.lines.enum.filterMap (fun il =>
      if t ∈ tokenize il.2 then some (d.id, il.1 + 1) else none))).flatten

/-- All token occurrences of the corpus (with repetition). -/
def allTokens (st : MemexStore) : List String :=
  (st.docs.map (fun d => (d.lines.map tokenize).flatten)).flatten

/-- Number of distinct tokens (spec 4.2). -/
def tokenCount (st : MemexStore) : Nat := (allTokens st).dedup.length

/-- Number of decimal digits. -/
def natWidth (n : Nat) : Nat := (digitsOf n).length

/-- Right-align a character sequence to width `w` with spaces. -/
def padLeft (s : List Char) (w : Nat) : List Char :=
  List.replicate (w - s.length) ' ' ++ s

/-- One rendered read line: the 1-indexed line number right-aligned to
width `w`, two spaces, then the original text (spec 4.1). -/
def renderLine (w idx : Nat) (text : String) : String :=
  ⟨padLeft (digitsOf idx) w ++ ' ' :: ' ' :: text.data⟩

/-- Join strings with single newlines, no trailing newline. -/
def joinLines : List String → String
  | [] => ""
  | [s] => s
  | s :: rest => s ++ "\n" ++ joinLines rest

/-- Modelled from the spec: `read(path, offset?, limit?)` (spec 4.1) —
offset defaults to 1, limit defaults to all remaining lines capped at
2000; out-of-range offsets yield an empty string; fails when the path is
not in the store. -/
def memexRead (st : MemexStore) (path : String) (offset limit : Option Nat) :
    Except String String :=
  match st.docs.find? (fun d => d.path == path) with
  | none => .error ("document not found: " ++ path)
  | some d =>
    let off := offset.getD 1
    let total := d.lines.length
    let lim := match limit with
      | some l => l
      | none => min (total + 1 - off) 2000
    let slice := (d.lines.drop (off - 1)).take lim
    let w := natWidth (off + slice.length - 1)
    .ok (joinLines (slice.enum.map (fun il => renderLine w (off + il.1) il.2)))

/-- Drop `pre` from the front of `l` when it is literally there. -/
def stripLead : List Char → List Char → Option (List Char)
  | [], l => some l
  | _ :: _, [] => none
  | p :: ps, c :: cs => if p = c then stripLead ps cs else none

/-- First path segment of a character sequence, and whether a `/`
followed it. -/
def firstSeg : List Char → List Char × Bool
  | [] => ([], false)
  | c :: cs =>
    if c = '/' then ([], true)
    else
      match firstSeg cs with
      | (s, b) => (c :: s, b)

/-- The displayed child entry of `path` contributed by a document path,
if any: a subdirectory as `name/`, a file as its bare name (spec 4.1). -/
def childOf (path docPath : List Char) : Option String :=
  match (if path.isEmpty then some docPath else stripLead (path ++ ['/']) docPath) with
  | none => none
  | some rel =>
    match firstSeg rel with
    | (seg, true) => some ⟨seg ++ ['/']⟩
    | (seg, false) => some ⟨seg⟩

/-- Modelled from the spec: `ls(path)` (spec 4.1) — immediate children of
`path`, subdirectories once with a trailing slash, sorted
lexicographically by displayed string. -/
def memexLs (st : MemexStore) (path : String) : List String :=
  List.insertionSort byteLe
    ((st.docs.filterMap (fun d => childOf path.data d.path.data)).dedup)

/-- The regex metacharacters of the classification rule (spec 4.3). -/
def regexMeta : List Char :=
  ['.', '*', '+', '?', '[', ']', lbrace, rbrace, '(', ')', '|', '^', '$', '\\']

/-- A pattern containing any regex metacharacter is classified regex. -/
def isRegexPattern (p : String) : Bool := p.data.any (fun c => regexMeta.contains c)

/-- Modelled from the spec: glob matching — `*` matches within one
segment, `**` across segments, other characters literally (spec 4.3).
Fuel makes the recursion structural. -/
def globCore : Nat → List Char → List Char → Bool
  | 0, _, _ => false
  | fuel + 1, p, t =>
    match p with
    | [] => t.isEmpty
    | '*' :: '*' :: ps =>
      globCore fuel ps t ||
        (match t with
         | [] => false
         | _ :: ts => globCore fuel ('*' :: '*' :: ps) ts)
    | '*' :: ps =>
      globCore fuel ps t ||
        (match t with
         | [] => false
         | c :: ts => if c = '/' then false else globCore fuel ('*' :: ps) ts)
    | c :: ps =>
      match t with
      | [] => false
      | c' :: ts => c == c' && globCore fuel ps ts

/-- Whether a document path matches a glob pattern. -/
def globMatch (pat text : String) : Bool :=
  globCore (pat.data.length + text.data.length + 1) pat.data text.data

/-- Prefix test on character sequences. -/
def startsWithChars : List Char → List Char → Bool
  | [], _ => true
  | _ :: _, [] => false
  | n :: ns, h :: hs => n == h && startsWithChars ns hs

/-- Substring test on character sequences. -/
def containsSub (needle hay : List Char) : Bool :=
  match hay with
  | [] => needle.isEmpty
  | _ :: hs => startsWithChars needle hay || containsSub needle hs

/-- One grep match (spec 3): path, 1-indexed line, original line text. -/
structure GrepResult where
  path : String
  line : Nat
  content : String
deriving DecidableEq

/-- The tagged per-query matching strategy (spec 4.3, design note):
index fast path, case-insensitive substring slow path, or regex. -/
inductive MatchMode where
  | fastToken (t : String)
  | slowSubstring (lowered : List Char)
  | regex (m : String → Bool)

/-- Modelled from the spec: pattern classification (spec 4.3 steps 1 and
3-5).  `rx` stands for the host regex engine: it compiles a pattern to a
case-insensitive line predicate, or fails. -/
def classify (rx : String → Option (String → Bool)) (p : String) :
    Except String MatchMode :=
  if isRegexPattern p then
    match rx p with
    | some m => .ok (.regex m)
    | none => .error ("invalid pattern: " ++ p)
  else
    let lp := lowerChars p.data
    if !lp.isEmpty && lp.all isWordChar then .ok (.fastToken ⟨lp⟩)
    else .ok (.slowSubstring lp)

/-- Candidate documents after glob scoping (spec 4.3 step 2). -/
def candidates (st : MemexStore) (glob : Option String) : List Document :=
  match glob with
  | none => st.docs
  | some g => st.docs.filter (fun d => globMatch g d.path)

/-- Modelled from the spec: result collection (spec 4.3 steps 3-6):
fast path restricted to candidates through the index, slow and regex
paths scanning candidate lines; at most one result per line. -/
def collectResults (st : MemexStore) (mode : MatchMode) (glob : Option String) :
    List GrepResult :=
  match mode with
  | .fastToken t =>
    let cand := (candidates st glob).map (fun d => d.id)
    (indexLookup st t).filterMap (fun iln =>
      if iln.1 ∈ cand then
        match st.docs.find? (fun d => d.id == iln.1) with
        | some d =>
          match d.lines.get? (iln.2 - 1) with
          | some content => some ⟨d.path, iln.2, content⟩
          | none => none
        | none => none
      else none)
  | .slowSubstring lp =>
    ((candidates st glob).map (fun d =>
      d.lines.enum.filterMap (fun il =>
        if containsSub lp (lowerChars il.2.data) then
          some ⟨d.path, il.1 + 1, il.2⟩
        else none))).flatten
  | .regex m =>
    ((candidates st glob).map (fun d =>
      d.lines.enum.filterMap (fun il =>
        if m il.2 then some ⟨d.path, il.1 + 1, il.2⟩ else none))).flatten

/-- Result order: path ascending, then line ascending (spec 4.3 step 7). -/
def resultLe (a b : GrepResult) : Prop :=
  byteLt a.path b.path ∨ (a.path = b.path ∧ a.line ≤ b.line)

instance resultLe.dec : DecidableRel resultLe := fun a b => by
  unfold resultLe; infer_instance

/-- Sorting of collected results (spec 4.3 step 7). -/
def sortResults (l : List GrepResult) : List GrepResult :=
  List.insertionSort resultLe l

/-- Modelled from the spec: `grep(pattern, glob?)` (spec 4.3) — classify,
scope, collect, sort by `(path, line)`, cap at 100 after sorting. -/
def memexGrep (rx : String → Option (String → Bool)) (st : MemexStore)
    (p : String) (glob : Option String) : Except String (List GrepResult) :=
  match classify rx p with
  | .error e => .error e
  | .ok mode => .ok ((sortResults (collectResults st mode glob)).take 100)

/-! ## Serialization and tool dispatch -/

/-- JSON form of one grep result. -/
def grepResultJson (r : GrepResult) : Json :=
  .obj (.cons "path" (.str r.path) (.cons "line" (.num r.line)
    (.cons "content" (.str r.content) .nil)))

/-- Modelled from the spec: the core's `grep` serializes its structured
result to a JSON string (spec 4.4, 6). -/
def memexGrepStr (rx : String → Option (String → Bool)) (st : MemexStore)
    (p : String) (glob : Option String) : Except String String :=
  match memexGrep rx st p glob with
  | .error e => .error e
  | .ok rs => .ok (jsonRender (.arr (JsonItems.ofList (rs.map grepResultJson))))

/-- Modelled from the spec: the core's `ls` serializes its listing. -/
def memexLsStr (st : MemexStore) (path : String) : String :=
  jsonRender (.arr (JsonItems.ofList ((memexLs st path).map Json.str)))

/-- A parameter descriptor of a tool definition. -/
def paramJson (ty desc : String) : Json :=
  .obj (.cons "type" (.str ty) (.cons "description" (.str desc) .nil))

/-- One tool descriptor: name, description, parameter schema, required
list (spec 3, 4.4). -/
def toolDefJson (name desc : String) (params : JsonMembers) (req : List String) : Json :=
  .obj (.cons "name" (.str name) (.cons "description" (.str desc)
    (.cons "parameters" (.obj params)
      (.cons "required" (.arr (JsonItems.ofList (req.map Json.str))) .nil))))

/-- Modelled from the spec: the fixed three-tool registry (spec 4.4,
design note 9: the 3-tool superset is authoritative). -/
def toolDefsJson : Json :=
  .arr (JsonItems.ofList [
    toolDefJson "grep" "Search for a pattern across all documents."
      (.cons "pattern" (paramJson "string" "Search pattern (supports regex)")
        (.cons "glob" (paramJson "string" "Optional file pattern filter") .nil))
      ["pattern"],
    toolDefJson "read" "Read the contents of a document."
      (.cons "path" (paramJson "string" "Document path")
        (.cons "offset" (paramJson "number" "Line number to start reading from (1-indexed)")
          (.cons "limit" (paramJson "number" "Number of lines to return") .nil)))
      ["path"],
    toolDefJson "ls" "List immediate children of a directory."
      (.cons "path" (paramJson "string" "Directory path") .nil)
      ["path"]])

/-- The serialized tool table returned by the core. -/
def toolDefinitionsStr : String := jsonRender toolDefsJson

/-! ## The worker thread (worker.mjs, src/unnamed/part_005) -/

/-- A decoded request: the pool's API methods construct exactly these
argument shapes (part_001 lines 109-120); `unknown` covers the default
branch of the worker switch. -/
inductive Request where
  | grep (pattern : String) (glob : Option String)
  | read (path : String) (offset limit : Option Nat)
  | ls (path : String)
  | toolDefs
  | docCount
  | unknown (name : String)
deriving DecidableEq

/-- A delivered result value: deserialized JSON for structured results,
raw text or a number for scalar results. -/
inductive RVal where
  | json (v : Json)
  | text (s : String)
  | nat (n : Nat)
deriving DecidableEq

/-- The worker switch body (part_005 lines 26-44) without the catch:
grep, ls and toolDefinitions results go through `JSON.parse`; read and
documentCount results are returned raw. -/
def coreCall (rx : String → Option (String → Bool)) (fs : MemexStore) :
    Request → Except String RVal
  | .grep p g =>
    match memexGrepStr rx fs p g with
    | .error e => .error e
    | .ok s =>
      match jsonParse s with
      | some v => .ok (.json v)
      | none => .error "JSON.parse: unexpected input"
  | .read p off lim =>
    match memexRead fs p off lim with
    | .error e => .error e
    | .ok s => .ok (.text s)
  | .ls p =>
    match jsonParse (memexLsStr fs p) with
    | some v => .ok (.json v)
    | none => .error "JSON.parse: unexpected input"
  | .toolDefs =>
    match jsonParse toolDefinitionsStr with
    | some v => .ok (.json v)
    | none => .error "JSON.parse: unexpected input"
  | .docCount => .ok (.nat (documentCount fs))
  | .unknown name => .error ("unknown method: " ++ name)

/-- A worker response message: `{id, result}` on success, `{id, error}`
when the dispatch threw (part_005 lines 45-48). -/
structure WireMsg where
  id : Nat
  result : Option RVal
  error : Option String
deriving DecidableEq

/-- The worker message handler: try the dispatch, post the result, or
catch and post the error message (part_005 lines 22-49). -/
def workerPost (rx : String → Option (String → Bool)) (fs : MemexStore)
    (id : Nat) (req : Request) : WireMsg :=
  match coreCall rx fs req with
  | .ok r => ⟨id, some r, none⟩
  | .error e => ⟨id, none, some e⟩

/-- The worker message loop over a request sequence: exactly one response
per request. -/
def workerServe (rx : String → Option (String → Bool)) (fs : MemexStore)
    (msgs : List (Nat × Request)) : List WireMsg :=
  msgs.map (fun m => workerPost rx fs m.1 m.2)

/-- Worker thread output events. -/
inductive WorkerOut where
  | ready
  | resp (m : WireMsg)
deriving DecidableEq

/-- The worker module's output trace (part_005): it builds its store from
the collected docs, posts "ready", then serves requests; when
construction throws, the worker emits no messages at all. -/
def workerTrace (rx : String → Option (String → Bool))
    (pairs : List (String × String)) (msgs : List (Nat × Request)) :
    List WorkerOut :=
  match memexConstruct pairs with
  | .error _ => []
  | .ok fs => .ready :: (workerServe rx fs msgs).map WorkerOut.resp

/-- The pool-side message handler (part_001 lines 26-37): a defined
`error` field rejects the pending promise with an error carrying that
message, otherwise the promise resolves with the result. -/
def poolSettle (m : WireMsg) : Except String (Option RVal) :=
  match m.error with
  | some e => .error e
  | none => .ok m.result

/-! ## The worker pool (pool.mjs, src/unnamed/part_001) -/

/-- One worker slot: its pending request ids (the keys of the `pending`
map of part_001). -/
structure Slot where
  pending : List Nat
deriving DecidableEq

/-- The pool state: worker slots, the request id counter, and the
terminated flag. -/
structure PoolState where
  slots : List Slot
  nextId : Nat
  terminated : Bool
deriving DecidableEq

/-- The least-pending selection loop (part_001 lines 95-100): `bi`/`bv`
are the best index and its pending count so far, `i` the index of the
next list element; a strictly smaller count replaces the best. -/
def bestAux (i bi bv : Nat) : List Nat → Nat × Nat
  | [] => (bi, bv)
  | s :: rest =>
    if s < bv then bestAux (i + 1) i s rest
    else bestAux (i + 1) bi bv rest

/-- Selected slot index and its pending count: the scan starts from slot
0 (part_001 line 95). -/
def bestSlot (sizes : List Nat) : Nat × Nat :=
  match sizes with
  | [] => (0, 0)
  | s :: rest => bestAux 1 0 s rest

/-- The pending counts of all slots. -/
def pendingSizes (st : PoolState) : List Nat :=
  st.slots.map (fun s => s.pending.length)

/-- Decimal rendering of a natural number as a string. -/
def natToStr (n : Nat) : String := ⟨digitsOf n⟩

/-- dispatch (part_001 lines 91-107): reject immediately when the pool is
terminated (no message posted); otherwise register a fresh id on the
least-pending slot and post to it.  Returns the posted-to slot index (if
any), the new state, and the immediate rejection message (if any). -/
def dispatch (st : PoolState) (_req : Request) :
    Option Nat × PoolState × Option String :=
  if st.terminated then (none, st, some "pool is terminated")
  else
    let best := (bestSlot (pendingSizes st)).1
    match st.slots.get? best with
    | none => (none, st, none)
    | some sl =>
      (some best,
       ⟨st.slots.set best ⟨sl.pending ++ [st.nextId]⟩, st.nextId + 1, st.terminated⟩,
       none)

/-- The worker exit handler (part_001 lines 46-58): nothing when the pool
is terminated; otherwise every request pending on the exiting slot is
rejected with a message naming the exit code, the slot's pending map is
cleared, and the slot is replaced by a freshly spawned worker (empty
pending map).  Returns the new state and the rejections. -/
def onExit (st : PoolState) (i code : Nat) : PoolState × List (Nat × String) :=
  if st.terminated then (st, [])
  else
    match st.slots.get? i with
    | none => (st, [])
    | some sl =>
      (⟨st.slots.set i ⟨[]⟩, st.nextId, st.terminated⟩,
       sl.pending.map (fun id => (id, "worker exited with code " ++ natToStr code)))

/-- terminate (part_001 lines 121-124): set the flag; workers are then
torn down. -/
def poolTerminate (st : PoolState) : PoolState := ⟨st.slots, st.nextId, true⟩

/-- The freshly created pool: `size` workers, no pending requests. -/
def initialPool (size : Nat) : PoolState := ⟨List.replicate size ⟨[]⟩, 0, false⟩

/-- createPool resolves exactly when every one of its workers posted
"ready"; as all workers load the same directory, that is when store
construction over the collected docs succeeds (part_001 lines 63-89). -/
def createPoolResolves (pairs : List (String × String)) : Bool :=
  (memexConstruct pairs).isOk

/-! ## Directory trees and the JS loading layer

`js/collect.mjs`, `js/loader.mjs` and the recursive loader walk a real
directory tree; the tree is modelled as a value, file reads as lookups
in it. -/

mutual
/-- A directory entry: a file with content, or a subdirectory.  Mutual
inductives (instead of a nested `List`) keep all recursions structural
and kernel-computable. -/
inductive FsEntry where
  | file (name : String) (content : String)
  | dir (name : String) (entries : FsEntries)
deriving DecidableEq

/-- The ordered entries of one directory, as `readdirSync` returns them. -/
inductive FsEntries where
  | nil
  | cons (e : FsEntry) (tl : FsEntries)
deriving DecidableEq
end

/-- The name of a directory entry. -/
def FsEntry.name : FsEntry → String
  | .file n _ => n
  | .dir n _ => n

/-- The entries as a Lean list (the entry names seen by `readdirSync`). -/
def FsEntries.toList : FsEntries → List FsEntry
  | .nil => []
  | .cons e tl => e :: tl.toList

/-- The `.endsWith(".md")` test of collect.mjs and loader.mjs. -/
def endsWithMd (s : String) : Bool :=
  match s.data.reverse with
  | 'd' :: 'm' :: '.' :: _ => true
  | _ => false

/-- Join path segments with forward slashes. -/
def joinSegs : List String → String
  | [] => ""
  | [s] => s
  | s :: rest => s ++ "/" ++ joinSegs rest

/-- collectMdFiles (js/collect.mjs lines 8-26): walk the entries in
order, recursing into directories in place and collecting `.md` files as
`(relative path, content)` pairs; `segs` is the path from the root to the
current directory. -/
def collectFrom : List String → FsEntries → List (String × String)
  | _, .nil => []
  | segs, .cons (.file n c) rest =>
    (if endsWithMd n then [(joinSegs (segs ++ [n]), c)] else []) ++
      collectFrom segs rest
  | segs, .cons (.dir d es) rest =>
    collectFrom (segs ++ [d]) es ++ collectFrom segs rest

/-- collectMdFiles started at the root directory, as both loaders call
it: `collectMdFiles(dir, dir)`. -/
def collectMdFiles (root : FsEntries) : List (String × String) :=
  collectFrom [] root

/-- Reachability: the file named `n` with content `c` sits in the tree
under the directory segments `segs`. -/
inductive FileAt : FsEntries → List String → String → String → Prop where
  | head {n c : String} {tl : FsEntries} :
      FileAt (.cons (.file n c) tl) [] n c
  | intoDir {d : String} {es : FsEntries} {tl : FsEntries}
      {segs : List String} {n c : String} :
      FileAt es segs n c → FileAt (.cons (.dir d es) tl) (d :: segs) n c
  | skip {e : FsEntry} {tl : FsEntries} {segs : List String} {n c : String} :
      FileAt tl segs n c → FileAt (.cons e tl) segs n c

/-- Primary collation weight of a character: models the ICU root
collation used by the host's `localeCompare` for ASCII — punctuation and
symbols sort before digits, digits before letters, and letters compare
case-insensitively at the primary level. -/
def primaryW (c : Char) : Nat :=
  if c.isAlpha then 1000 + c.toLower.toNat
  else if c.isDigit then 500 + c.toNat
  else c.toNat

/-- Tertiary (case) collation weight: lowercase before uppercase. -/
def tertiaryW (c : Char) : Nat := if c.isUpper then 1 else 0

/-- Models the host's `String.prototype.localeCompare` under the default
locale (ICU root collation), restricted to ASCII strings: the primary
weight sequences are compared first, and equal primary sequences are
ordered by the case weights. -/
def localeCmp (a b : String) : Ordering :=
  match listCmp (fun c d => cmpNat (primaryW c) (primaryW d)) a.data b.data with
  | .eq => listCmp (fun c d => cmpNat (tertiaryW c) (tertiaryW d)) a.data b.data
  | o => o

/-- Non-strict locale-collation order. -/
def localeLe (a b : String) : Prop := localeCmp a b ≠ .gt

instance localeLe.dec : DecidableRel localeLe := fun a b => by
  unfold localeLe; infer_instance

/-- Locale-collation order on `(path, content)` pairs by path: the
comparator `(a, b) => a[0].localeCompare(b[0])`. -/
def pairLocaleLe (a b : String × String) : Prop := localeLe a.1 b.1

instance pairLocaleLe.dec : DecidableRel pairLocaleLe :=
  fun a b => localeLe.dec a.1 b.1

/-- loadFromDirectory of the recursive loader (src/unnamed/part_003 lines
25-34) and the worker module init (src/unnamed/part_005 lines 14-18):
collect `.md` files recursively, then sort by
`a[0].localeCompare(b[0])`; JS `Array.prototype.sort` is stable, so it is
modelled by a stable insertion sort. -/
def loadDocsRecursive (root : FsEntries) : List (String × String) :=
  List.insertionSort pairLocaleLe (collectMdFiles root)

/-- Look up a directory entry by name. -/
def entryNamed : List FsEntry → String → Option FsEntry
  | [], _ => none
  | e :: rest, n => if e.name = n then some e else entryNamed rest n

/-- `readFileSync` on each name in order: a directory entry named like a
file fails as the host would. -/
def readAll : List String → List FsEntry → Except String (List (String × String))
  | [], _ => .ok []
  | n :: ns, root =>
    match entryNamed root n with
    | some (.file _ c) =>
      match readAll ns root with
      | .ok rest => .ok ((n, c) :: rest)
      | .error e => .error e
    | some (.dir _ _) =>
      .error ("EISDIR: illegal operation on a directory, read " ++ n)
    | none => .error ("ENOENT: no such file or directory " ++ n)

/-- loadFromDirectory of js/loader.mjs (lines 24-35): top-level directory
entries only, names ending in `.md`, sorted by the default JS sort
(code-unit order), each read as a file. -/
def loadDocsFlat (root : FsEntries) : Except String (List (String × String)) :=
  readAll
    (List.insertionSort byteLe
      ((root.toList.map FsEntry.name).filter (fun n => endsWithMd n)))
    root.toList

/-! ## Claim lemmas and theorems -/

theorem collectFrom_mem :
    ∀ (es : FsEntries) (segs : List String) (p c : String),
      (p, c) ∈ collectFrom segs es ↔
        ∃ dsegs n, FileAt es dsegs n c ∧ endsWithMd n = true ∧
          p = joinSegs (segs ++ (dsegs ++ [n]))
  | .nil, segs, p, c => by
    simp only [collectFrom, List.not_mem_nil, false_iff]
    rintro ⟨dsegs, n, hat, _, _⟩
    cases hat
  | .cons (.file n₀ c₀) tl, segs, p, c => by
    simp only [collectFrom, List.mem_append]
    constructor
    · rintro (h | h)
      · by_cases hmd : endsWithMd n₀ = true
        · rw [if_pos hmd] at h
          simp only [List.mem_singleton, Prod.mk.injEq] at h
          obtain ⟨hp, hc⟩ := h
          subst hc
          exact ⟨[], n₀, FileAt.head, hmd, by simpa using hp⟩
        · rw [if_neg hmd] at h
          cases h
      · obtain ⟨ds, n, hat, hmd, hp⟩ := (collectFrom_mem tl segs p c).mp h
        exact ⟨ds, n, .skip hat, hmd, hp⟩
    · rintro ⟨ds, n, hat, hmd, hp⟩
      cases hat with
      | head =>
        left
        rw [if_pos hmd]
        simp [hp]
      | skip hat₂ =>
        right
        exact (collectFrom_mem tl segs p c).mpr ⟨ds, n, hat₂, hmd, hp⟩
  | .cons (.dir d es) tl, segs, p, c => by
    simp only [collectFrom, List.mem_append]
    constructor
    · rintro (h | h)
      · obtain ⟨ds, n, hat, hmd, hp⟩ := (collectFrom_mem es (segs ++ [d]) p c).mp h
        refine ⟨d :: ds, n, .intoDir hat, hmd, ?_⟩
        rw [hp]
        congr 1
        simp
      · obtain ⟨ds, n, hat, hmd, hp⟩ := (collectFrom_mem tl segs p c).mp h
        exact ⟨ds, n, .skip hat, hmd, hp⟩
    · rintro ⟨ds, n, hat, hmd, hp⟩
      cases hat with
      | intoDir hat₂ =>
        left
        refine (collectFrom_mem es (segs ++ [d]) p c).mpr ⟨_, n, hat₂, hmd, ?_⟩
        rw [hp]
        congr 1
        simp
      | skip hat₂ =>
        right
        exact (collectFrom_mem tl segs p c).mpr ⟨ds, n, hat₂, hmd, hp⟩

/-- Claim C1: for every directory tree, `collectMdFiles(rootDir, rootDir)`
returns a `(path, content)` pair for exactly those files whose name ends
in ".md" anywhere under the root, including nested subdirectories; each
pair's path is the forward-slash joined root-relative segment path, its
content is the file's text, and no other file contributes a pair. -/
theorem C1_collectMdFiles_exactly_md_files (root : FsEntries) (p c : String) :
    (p, c) ∈ collectMdFiles root ↔
      ∃ segs n, FileAt root segs n c ∧ endsWithMd n = true ∧
        p = joinSegs (segs ++ [n]) := by
  unfold collectMdFiles
  rw [collectFrom_mem]
  simp only [List.nil_append]

theorem listCmp_map (g : β → β → Ordering) (h : α → β) :
    ∀ l₁ l₂ : List α,
      listCmp (fun a b => g (h a) (h b)) l₁ l₂ = listCmp g (l₁.map h) (l₂.map h)
  | [], [] => rfl
  | [], _ :: _ => rfl
  | _ :: _, [] => rfl
  | a :: as, b :: bs => by
    simp only [List.map_cons, listCmp]
    cases g (h a) (h b) <;> simp [listCmp_map g h as bs]

theorem localeCmp_key (a b : String) :
    localeCmp a b =
      match listCmp cmpNat (a.data.map primaryW) (b.data.map primaryW) with
      | .eq => listCmp cmpNat (a.data.map tertiaryW) (b.data.map tertiaryW)
      | o => o := by
  unfold localeCmp
  rw [listCmp_map cmpNat primaryW, listCmp_map cmpNat tertiaryW]

theorem natListCmp_eq_iff {l₁ l₂ : List Nat} :
    listCmp cmpNat l₁ l₂ = .eq ↔ l₁ = l₂ :=
  listCmp_eq_iff cmpNat (fun _ _ => cmpNat_eq_iff) l₁ l₂

theorem natListCmp_swap (l₁ l₂ : List Nat) :
    (listCmp cmpNat l₁ l₂).swap = listCmp cmpNat l₂ l₁ :=
  listCmp_swap cmpNat cmpNat_swap l₁ l₂

theorem natListCmp_trans_lt {l₁ l₂ l₃ : List Nat} :
    listCmp cmpNat l₁ l₂ = .lt → listCmp cmpNat l₂ l₃ = .lt →
      listCmp cmpNat l₁ l₃ = .lt :=
  listCmp_trans_lt cmpNat (fun _ _ => cmpNat_eq_iff)
    (fun a b c h₁ h₂ => by
      rw [cmpNat_lt_iff] at h₁ h₂ ⊢
      omega) l₁ l₂ l₃

theorem localeCmp_swap (a b : String) : (localeCmp a b).swap = localeCmp b a := by
  rw [localeCmp_key, localeCmp_key]
  have hp := natListCmp_swap (a.data.map primaryW) (b.data.map primaryW)
  have ht := natListCmp_swap (a.data.map tertiaryW) (b.data.map tertiaryW)
  cases hab : listCmp cmpNat (a.data.map primaryW) (b.data.map primaryW) with
  | eq =>
    have hba : listCmp cmpNat (b.data.map primaryW) (a.data.map primaryW) = .eq := by
      rw [← hp, hab]; rfl
    rw [hba]
    exact ht
  | lt =>
    have hba : listCmp cmpNat (b.data.map primaryW) (a.data.map primaryW) = .gt := by
      rw [← hp, hab]; rfl
    rw [hba]
    rfl
  | gt =>
    have hba : listCmp cmpNat (b.data.map primaryW) (a.data.map primaryW) = .lt := by
      rw [← hp, hab]; rfl
    rw [hba]
    rfl

theorem localeLe_total (a b : String) : localeLe a b ∨ localeLe b a := by
  unfold localeLe
  by_cases h : localeCmp a b = .gt
  · right
    have hs := localeCmp_swap a b
    rw [h] at hs
    intro hba
    rw [hba] at hs
    exact absurd hs (by decide)
  · left; exact h

theorem localeLe_trans {a b c : String} :
    localeLe a b → localeLe b c → localeLe a c := by
  unfold localeLe
  rw [localeCmp_key, localeCmp_key, localeCmp_key]
  intro h₁ h₂ hac
  cases hab : listCmp cmpNat (a.data.map primaryW) (b.data.map primaryW) with
  | gt => rw [hab] at h₁; exact h₁ rfl
  | eq =>
    have hpab := natListCmp_eq_iff.mp hab
    rw [hab] at h₁
    have h₁t : listCmp cmpNat (a.data.map tertiaryW) (b.data.map tertiaryW) ≠ .gt := h₁
    cases hbc : listCmp cmpNat (b.data.map primaryW) (c.data.map primaryW) with
    | gt => rw [hbc] at h₂; exact h₂ rfl
    | lt =>
      rw [hpab, hbc] at hac
      simp at hac
    | eq =>
      rw [hbc] at h₂
      have h₂t : listCmp cmpNat (b.data.map tertiaryW) (c.data.map tertiaryW) ≠ .gt := h₂
      rw [hpab, hbc] at hac
      have hact : listCmp cmpNat (a.data.map tertiaryW) (c.data.map tertiaryW) = .gt := hac
      cases htab : listCmp cmpNat (a.data.map tertiaryW) (b.data.map tertiaryW) with
      | gt => exact h₁t htab
      | eq =>
        have h := natListCmp_eq_iff.mp htab
        rw [h] at hact
        exact h₂t hact
      | lt =>
        cases htbc : listCmp cmpNat (b.data.map tertiaryW) (c.data.map tertiaryW) with
        | gt => exact h₂t htbc
        | eq =>
          have h := natListCmp_eq_iff.mp htbc
          rw [← h, htab] at hact
          exact absurd hact (by decide)
        | lt =>
          have h := natListCmp_trans_lt htab htbc
          rw [hact] at h
          exact absurd h (by decide)
  | lt =>
    cases hbc : listCmp cmpNat (b.data.map primaryW) (c.data.map primaryW) with
    | gt => rw [hbc] at h₂; exact h₂ rfl
    | eq =>
      have hpbc := natListCmp_eq_iff.mp hbc
      rw [← hpbc, hab] at hac
      simp at hac
    | lt =>
      have h := natListCmp_trans_lt hab hbc
      rw [h] at hac
      simp at hac

instance : IsTotal String localeLe := ⟨localeLe_total⟩
instance : IsTrans String localeLe := ⟨fun _ _ _ => localeLe_trans⟩
instance : IsTotal (String × String) pairLocaleLe := ⟨fun a b => localeLe_total a.1 b.1⟩
instance : IsTrans (String × String) pairLocaleLe := ⟨fun _ _ _ => localeLe_trans⟩
instance : IsTotal (String × String) pairLe := ⟨fun a b => byteLe_total a.1 b.1⟩
instance : IsTrans (String × String) pairLe := ⟨fun _ _ _ => byteLe_trans⟩

theorem memexConstruct_ok {pairs : List (String × String)} {st : MemexStore}
    (h : memexConstruct pairs = .ok st) :
    st.docs = (List.insertionSort pairLe pairs).enum.map
      (fun ic => ⟨ic.1, ic.2.1, splitLines ic.2.2⟩) := by
  unfold memexConstruct at h
  split at h
  · cases h
  · simp only [Except.ok.injEq] at h
    rw [← h]

/-- The directory tree with files `B.md` and `a.md`, in that on-disk
order: locale collation and code-unit order disagree on it. -/
def treeBa : FsEntries := .cons (.file "B.md" "x") (.cons (.file "a.md" "y") .nil)

/-- Claim C2 counterexample: the recursive loader (and the identical
worker init) sorts with `localeCompare`, which places `a.md` before
`B.md`; in ascending code-unit lexicographic order `B.md` comes first
(66 < 97), so the list passed to construction is not sorted by path in
ascending lexicographic order. -/
theorem C2_counterexample_locale_is_not_lexicographic :
    (loadDocsRecursive treeBa).map Prod.fst = ["a.md", "B.md"] ∧
    ¬ List.Sorted byteLe ((loadDocsRecursive treeBa).map Prod.fst) := by
  constructor
  · decide
  · intro h
    have h1 : (loadDocsRecursive treeBa).map Prod.fst = ["a.md", "B.md"] := by decide
    rw [h1] at h
    have h2 := (List.pairwise_cons.mp h).1 "B.md" (by simp)
    exact absurd h2 (by decide)

/-- Claim C2 (amended): the `(path, content)` list passed to `MemexFS`
construction by the recursive loader and by every pool worker is sorted
ascending by the host's default-locale collation (`localeCompare`), not
by code-unit lexicographic order; the store's own construction re-sorts
by path, so document id assignment is nonetheless consistent with
ascending lexicographic path order. -/
theorem C2_sorted_by_locale_collation (root : FsEntries) (st : MemexStore)
    (h : memexConstruct (loadDocsRecursive root) = .ok st) :
    List.Sorted pairLocaleLe (loadDocsRecursive root) ∧
    List.Sorted byteLe (st.docs.map Document.path) ∧
    st.docs.map Document.id = List.range st.docs.length := by
  refine ⟨List.sorted_insertionSort pairLocaleLe (collectMdFiles root), ?_, ?_⟩
  · rw [memexConstruct_ok h, List.map_map]
    have hs : List.Sorted pairLe (List.insertionSort pairLe (loadDocsRecursive root)) :=
      List.sorted_insertionSort pairLe _
    have hmap :
        (List.insertionSort pairLe (loadDocsRecursive root)).enum.map
          ((fun d => d.path) ∘ fun ic => Document.mk ic.1 ic.2.1 (splitLines ic.2.2)) =
        ((List.insertionSort pairLe (loadDocsRecursive root)).enum.map Prod.snd).map
          Prod.fst := by
      rw [List.map_map]
      rfl
    rw [hmap, List.enum_map_snd]
    exact List.Pairwise.map Prod.fst (fun {a b} hab => hab) hs
  · rw [memexConstruct_ok h, List.map_map]
    have hm :
        (Document.id ∘ fun ic : Nat × String × String =>
          Document.mk ic.1 ic.2.1 (splitLines ic.2.2)) = Prod.fst := rfl
    rw [hm, List.enum_map_fst]
    simp

/-- Claim C2 amended-theorem witness at the concrete tree `treeBa`. -/
theorem C2_sorted_by_locale_collation_witness :
    List.Sorted pairLocaleLe (loadDocsRecursive treeBa) ∧
    List.Sorted byteLe
      ((MemexStore.mk [⟨0, "B.md", ["x"]⟩, ⟨1, "a.md", ["y"]⟩]).docs.map Document.path) ∧
    (MemexStore.mk [⟨0, "B.md", ["x"]⟩, ⟨1, "a.md", ["y"]⟩]).docs.map Document.id =
      List.range (MemexStore.mk [⟨0, "B.md", ["x"]⟩, ⟨1, "a.md", ["y"]⟩]).docs.length :=
  C2_sorted_by_locale_collation treeBa ⟨[⟨0, "B.md", ["x"]⟩, ⟨1, "a.md", ["y"]⟩]⟩
    (by decide)

theorem entryNamed_name :
    ∀ (es : List FsEntry) (n : String) (e : FsEntry),
      entryNamed es n = some e → e.name = n
  | [], _, _ => by intro h; cases h
  | e₀ :: rest, n, e => by
    intro h
    simp only [entryNamed] at h
    split at h
    · cases h
      assumption
    · exact entryNamed_name rest n e h

theorem entryNamed_fileAt :
    ∀ (root : FsEntries) (n c : String),
      entryNamed root.toList n = some (.file n c) → FileAt root [] n c
  | .nil, n, c => by intro h; cases h
  | .cons e tl, n, c => by
    intro h
    simp only [FsEntries.toList, entryNamed] at h
    split at h
    · cases h
      exact FileAt.head
    · exact FileAt.skip (entryNamed_fileAt tl n c h)

theorem readAll_mem :
    ∀ (ns : List String) (entries : List FsEntry) (l : List (String × String)),
      readAll ns entries = .ok l →
      ∀ p c, (p, c) ∈ l → p ∈ ns ∧ entryNamed entries p = some (.file p c)
  | [], _, l => by
    intro h p c hmem
    simp only [readAll, Except.ok.injEq] at h
    rw [← h] at hmem
    cases hmem
  | n :: ns, entries, l => by
    intro h p c hmem
    simp only [readAll] at h
    cases hE : entryNamed entries n with
    | none => rw [hE] at h; cases h
    | some e =>
      rw [hE] at h
      cases e with
      | dir d es => cases h
      | file m c₀ =>
        cases hR : readAll ns entries with
        | error e₂ => rw [hR] at h; cases h
        | ok rest =>
          rw [hR] at h
          simp only [Except.ok.injEq] at h
          rw [← h] at hmem
          rcases List.mem_cons.mp hmem with heq | htl
          · have hmn : m = n := entryNamed_name entries n (.file m c₀) hE
            cases heq
            refine ⟨List.mem_cons_self _ _, ?_⟩
            rw [hmn] at hE
            exact hE
          · obtain ⟨hin, hfound⟩ := readAll_mem ns entries rest hR p c htl
            exact ⟨List.mem_cons_of_mem _ hin, hfound⟩

/-- The test tree of the repository's own fixtures: a top-level `top.md`
and a nested `subdir/deep.md`. -/
def treeNested : FsEntries :=
  .cons (.file "top.md" "T")
    (.cons (.dir "subdir" (.cons (.file "deep.md" "D") .nil)) .nil)

/-- Claim C9 counterexample: on a tree with a nested `.md` file the
top-level-only loader of js/loader.mjs and the recursive loader pass
different lists to construction — the flat loader misses
`subdir/deep.md`. -/
theorem C9_counterexample_flat_differs_from_recursive :
    loadDocsFlat treeNested = .ok [("top.md", "T")] ∧
    loadDocsRecursive treeNested = [("subdir/deep.md", "D"), ("top.md", "T")] ∧
    Except.ok (loadDocsRecursive treeNested) ≠ loadDocsFlat treeNested := by
  refine ⟨by decide, by decide, by decide⟩

/-- Claim C9 (amended): the two loaders do not pass the same list in
general — the flat loader of js/loader.mjs reads only top-level entries
while the recursive one collects nested `.md` files.  What does hold:
whenever the flat loader succeeds, every `(path, content)` pair it loads
is also loaded by the recursive loader, so the recursive loader's corpus
is a superset. -/
theorem C9_flat_loads_subset_of_recursive (root : FsEntries)
    (l : List (String × String)) (h : loadDocsFlat root = .ok l) :
    ∀ pc ∈ l, pc ∈ loadDocsRecursive root := by
  rintro ⟨p, c⟩ hmem
  unfold loadDocsFlat at h
  obtain ⟨hns, hfound⟩ := readAll_mem _ _ _ h p c hmem
  have hp_filter : p ∈ (root.toList.map FsEntry.name).filter (fun n => endsWithMd n) :=
    ((List.perm_insertionSort byteLe _).mem_iff).mp hns
  have hmd : endsWithMd p = true := by
    simpa using (List.mem_filter.mp hp_filter).2
  have hat : FileAt root [] p c := entryNamed_fileAt root p c hfound
  have hcol : (p, c) ∈ collectMdFiles root := by
    unfold collectMdFiles
    exact (collectFrom_mem root [] p c).mpr ⟨[], p, hat, hmd, by simp [joinSegs]⟩
  exact ((List.perm_insertionSort pairLocaleLe _).mem_iff).mpr hcol

/-- Claim C9 amended-theorem witness at the concrete tree `treeNested`. -/
theorem C9_flat_loads_subset_of_recursive_witness :
    ("top.md", "T") ∈ loadDocsRecursive treeNested :=
  C9_flat_loads_subset_of_recursive treeNested [("top.md", "T")] (by decide)
    ("top.md", "T") (by decide)

theorem bestAux_val_le :
    ∀ (l : List Nat) (i bi bv : Nat),
      (bestAux i bi bv l).2 ≤ bv ∧ ∀ s ∈ l, (bestAux i bi bv l).2 ≤ s
  | [], _, _, _ => ⟨Nat.le_refl _, by intro s hs; cases hs⟩
  | s₀ :: rest, i, bi, bv => by
    simp only [bestAux]
    split
    · rename_i hlt
      obtain ⟨h1, h2⟩ := bestAux_val_le rest (i + 1) i s₀
      refine ⟨Nat.le_trans h1 (Nat.le_of_lt hlt), ?_⟩
      intro s hs
      rcases List.mem_cons.mp hs with rfl | hs
      · exact h1
      · exact h2 s hs
    · rename_i hge
      obtain ⟨h1, h2⟩ := bestAux_val_le rest (i + 1) bi bv
      refine ⟨h1, ?_⟩
      intro s hs
      rcases List.mem_cons.mp hs with rfl | hs
      · exact Nat.le_trans h1 (Nat.le_of_not_lt hge)
      · exact h2 s hs

theorem bestAux_idx :
    ∀ (l : List Nat) (i bi bv : Nat) (sizes : List Nat),
      sizes.drop i = l → bi < sizes.length → sizes.get? bi = some bv →
      (bestAux i bi bv l).1 < sizes.length ∧
        sizes.get? (bestAux i bi bv l).1 = some (bestAux i bi bv l).2
  | [], _, _, _, _ => by
    intro _ hbi hget
    exact ⟨hbi, hget⟩
  | s₀ :: rest, i, bi, bv, sizes => by
    intro hdrop hbi hget
    have hi_lt : i < sizes.length := by
      by_contra hge
      rw [List.drop_eq_nil_of_le (Nat.le_of_not_lt hge)] at hdrop
      cases hdrop
    have hgeti : sizes.get? i = some s₀ := by
      have h := List.get?_drop sizes i 0
      rw [hdrop] at h
      simpa using h.symm
    have hdrop1 : sizes.drop (i + 1) = rest := by
      have h := List.drop_drop 1 i sizes
      rw [hdrop] at h
      simpa using h.symm
    simp only [bestAux]
    split
    · exact bestAux_idx rest (i + 1) i s₀ sizes hdrop1 hi_lt hgeti
    · exact bestAux_idx rest (i + 1) bi bv sizes hdrop1 hbi hget

theorem bestSlot_spec (sizes : List Nat) (h : sizes ≠ []) :
    (bestSlot sizes).1 < sizes.length ∧
    sizes.get? (bestSlot sizes).1 = some (bestSlot sizes).2 ∧
    ∀ j, j < sizes.length → (bestSlot sizes).2 ≤ sizes.getD j 0 := by
  cases sizes with
  | nil => exact absurd rfl h
  | cons s rest =>
    simp only [bestSlot]
    have hidx := bestAux_idx rest 1 0 s (s :: rest) (by simp) (by simp) (by simp)
    obtain ⟨hval1, hval2⟩ := bestAux_val_le rest 1 0 s
    refine ⟨hidx.1, hidx.2, ?_⟩
    intro j hj
    cases j with
    | zero => simpa using hval1
    | succ j =>
      have hjr : j < rest.length := by simpa using hj
      have hmem : rest.getD j 0 ∈ rest := by
        rw [List.getD_eq_getElem rest 0 hjr]
        exact List.getElem_mem hjr
      rw [List.getD_cons_succ]
      exact hval2 _ hmem

/-- Claim C3: an operation invoked on a non-terminated, non-empty pool is
dispatched to a slot whose number of outstanding (pending) requests at
dispatch time is less than or equal to that of every other slot. -/
theorem C3_least_pending_dispatch (st : PoolState) (req : Request)
    (hterm : st.terminated = false) (hne : st.slots ≠ []) :
    ∃ i, (dispatch st req).1 = some i ∧ i < st.slots.length ∧
      ∀ j, j < st.slots.length →
        (pendingSizes st).getD i 0 ≤ (pendingSizes st).getD j 0 := by
  have hsz : pendingSizes st ≠ [] := by
    unfold pendingSizes
    simpa using hne
  obtain ⟨hlt, hget, hmin⟩ := bestSlot_spec (pendingSizes st) hsz
  have hlen : (pendingSizes st).length = st.slots.length := by
    unfold pendingSizes
    simp
  refine ⟨(bestSlot (pendingSizes st)).1, ?_, by omega, ?_⟩
  · unfold dispatch
    rw [if_neg (by simp [hterm])]
    have hsl : st.slots[(bestSlot (pendingSizes st)).1]? =
        some (st.slots.get ⟨(bestSlot (pendingSizes st)).1, by omega⟩) := by
      rw [List.getElem?_eq_getElem (by omega)]
      rfl
    simp [hsl]
  · intro j hj
    have hminj := hmin j (by omega)
    have hgd : (pendingSizes st).getD (bestSlot (pendingSizes st)).1 0 =
        (bestSlot (pendingSizes st)).2 := by
      rw [List.getD_eq_get?, hget]
      rfl
    rw [hgd]
    exact hminj

/-- Claim C3 witness: a two-slot pool where the second slot has fewer
pending requests. -/
theorem C3_least_pending_dispatch_witness :
    ∃ i, (dispatch ⟨[⟨[7, 8]⟩, ⟨[9]⟩], 10, false⟩ .docCount).1 = some i ∧
      i < (PoolState.mk [⟨[7, 8]⟩, ⟨[9]⟩] 10 false).slots.length ∧
      ∀ j, j < (PoolState.mk [⟨[7, 8]⟩, ⟨[9]⟩] 10 false).slots.length →
        (pendingSizes ⟨[⟨[7, 8]⟩, ⟨[9]⟩], 10, false⟩).getD i 0 ≤
          (pendingSizes ⟨[⟨[7, 8]⟩, ⟨[9]⟩], 10, false⟩).getD j 0 :=
  C3_least_pending_dispatch ⟨[⟨[7, 8]⟩, ⟨[9]⟩], 10, false⟩ .docCount rfl (by decide)

/-- Claim C4: when a worker exits while the pool is not terminated, every
request pending on it is rejected with an error naming the exit code, its
pending map is emptied and the slot is replaced by a freshly spawned
worker, so the pool again holds as many slots as before; the other slots
are unchanged. -/
theorem C4_exit_rejects_and_respawns (st : PoolState) (i code : Nat)
    (hterm : st.terminated = false) (hi : i < st.slots.length) :
    (onExit st i code).1.slots.length = st.slots.length ∧
    (onExit st i code).1.slots.get? i = some ⟨[]⟩ ∧
    (∀ j, j ≠ i → (onExit st i code).1.slots.get? j = st.slots.get? j) ∧
    (onExit st i code).2 =
      (st.slots.get ⟨i, hi⟩).pending.map
        (fun id => (id, "worker exited with code " ++ natToStr code)) ∧
    (onExit st i code).1.terminated = false ∧
    (onExit st i code).1.nextId = st.nextId := by
  unfold onExit
  rw [if_neg (by simp [hterm])]
  rw [List.get?_eq_get hi]
  refine ⟨by simp, ?_, ?_, rfl, hterm, rfl⟩
  · have h := List.get?_set_eq (Slot.mk []) i st.slots
    rw [List.get?_eq_get hi] at h
    simpa using h
  · intro j hj
    exact List.get?_set_ne _ st.slots (fun he => hj he.symm)

/-- Claim C4 witness: a two-slot pool whose first worker exits with
code 1. -/
theorem C4_exit_rejects_and_respawns_witness :
    (onExit ⟨[⟨[3, 4]⟩, ⟨[5]⟩], 6, false⟩ 0 1).1.slots.length =
      (PoolState.mk [⟨[3, 4]⟩, ⟨[5]⟩] 6 false).slots.length ∧
    (onExit ⟨[⟨[3, 4]⟩, ⟨[5]⟩], 6, false⟩ 0 1).1.slots.get? 0 = some ⟨[]⟩ ∧
    (∀ j, j ≠ 0 →
      (onExit ⟨[⟨[3, 4]⟩, ⟨[5]⟩], 6, false⟩ 0 1).1.slots.get? j =
        (PoolState.mk [⟨[3, 4]⟩, ⟨[5]⟩] 6 false).slots.get? j) ∧
    (onExit ⟨[⟨[3, 4]⟩, ⟨[5]⟩], 6, false⟩ 0 1).2 =
      ((PoolState.mk [⟨[3, 4]⟩, ⟨[5]⟩] 6 false).slots.get ⟨0, by decide⟩).pending.map
        (fun id => (id, "worker exited with code " ++ natToStr 1)) ∧
    (onExit ⟨[⟨[3, 4]⟩, ⟨[5]⟩], 6, false⟩ 0 1).1.terminated = false ∧
    (onExit ⟨[⟨[3, 4]⟩, ⟨[5]⟩], 6, false⟩ 0 1).1.nextId =
      (PoolState.mk [⟨[3, 4]⟩, ⟨[5]⟩] 6 false).nextId :=
  C4_exit_rejects_and_respawns ⟨[⟨[3, 4]⟩, ⟨[5]⟩], 6, false⟩ 0 1 rfl (by decide)

/-- Claim C10: once the pool is terminated, every dispatch — hence every
API method grep, read, ls, toolDefinitions, documentCount — returns an
immediate rejection with the message "pool is terminated", no message is
posted to any worker, the state is unchanged, and a worker exit spawns no
replacement and rejects nothing. -/
theorem C10_terminated_pool_rejects (st : PoolState) (req : Request)
    (i code : Nat) :
    dispatch (poolTerminate st) req =
      (none, poolTerminate st, some "pool is terminated") ∧
    onExit (poolTerminate st) i code = (poolTerminate st, []) := by
  unfold poolTerminate dispatch onExit
  simp

/-- Claim C5: createPool resolves only when every worker has fully
constructed its store and posted "ready"; a worker posts "ready" only
after construction completes and before serving any request, so no
request is ever handled against a partially-built store: in every worker
output trace the first event is "ready" and every response comes strictly
after it, and a failed construction produces no trace at all. -/
theorem C5_ready_only_after_construction (rx : String → Option (String → Bool))
    (pairs : List (String × String)) (msgs : List (Nat × Request)) :
    (createPoolResolves pairs = true ↔ ∃ fs, memexConstruct pairs = .ok fs) ∧
    (∀ fs, memexConstruct pairs = .ok fs →
      workerTrace rx pairs msgs =
        .ready :: (workerServe rx fs msgs).map WorkerOut.resp) ∧
    (∀ k m, (workerTrace rx pairs msgs).get? k = some (.resp m) →
      0 < k ∧ (workerTrace rx pairs msgs).get? 0 = some .ready) := by
  refine ⟨?_, ?_, ?_⟩
  · unfold createPoolResolves
    cases hc : memexConstruct pairs with
    | error e => simp [Except.isOk, Except.toBool]
    | ok fs => simp [Except.isOk, Except.toBool]
  · intro fs hc
    unfold workerTrace
    rw [hc]
  · intro k m h
    unfold workerTrace at h ⊢
    cases hc : memexConstruct pairs with
    | error e => rw [hc] at h; cases h
    | ok fs =>
      rw [hc] at h
      cases k with
      | zero => simp at h
      | succ k => exact ⟨Nat.succ_pos k, rfl⟩

/-- Claim C5 witness at a concrete corpus and request list. -/
theorem C5_ready_only_after_construction_witness :
    (createPoolResolves [("a.md", "hi")] = true ↔
      ∃ fs, memexConstruct [("a.md", "hi")] = .ok fs) ∧
    (∀ fs, memexConstruct [("a.md", "hi")] = .ok fs →
      workerTrace (fun _ => none) [("a.md", "hi")] [(0, .docCount)] =
        .ready :: (workerServe (fun _ => none) fs [(0, .docCount)]).map
          WorkerOut.resp) ∧
    (∀ k m, (workerTrace (fun _ => none) [("a.md", "hi")]
        [(0, .docCount)]).get? k = some (.resp m) →
      0 < k ∧ (workerTrace (fun _ => none) [("a.md", "hi")]
        [(0, .docCount)]).get? 0 = some .ready) :=
  C5_ready_only_after_construction (fun _ => none) [("a.md", "hi")] [(0, .docCount)]

/-- Claim C6: for every request through the pool, the settled promise
rejects exactly when the worker-side dispatch throws (unknown method, or
a failure of the underlying core operation), carrying the thrown message
unchanged; on success it resolves with the operation's result; and the
worker posts exactly one response per request, keyed by the request's
id. -/
theorem C6_reject_iff_dispatch_throws (rx : String → Option (String → Bool))
    (fs : MemexStore) (id : Nat) (req : Request) (msgs : List (Nat × Request)) :
    (workerPost rx fs id req).id = id ∧
    (poolSettle (workerPost rx fs id req) =
      match coreCall rx fs req with
      | .ok r => .ok (some r)
      | .error e => .error e) ∧
    ((∃ e, poolSettle (workerPost rx fs id req) = .error e) ↔
      (∃ e, coreCall rx fs req = .error e)) ∧
    (∀ e, poolSettle (workerPost rx fs id req) = .error e →
      coreCall rx fs req = .error e) ∧
    (workerServe rx fs msgs).length = msgs.length ∧
    (workerServe rx fs msgs).map (fun m => m.id) = msgs.map Prod.fst := by
  refine ⟨?_, ?_, ?_, ?_, ?_, ?_⟩
  · unfold workerPost
    cases coreCall rx fs req <;> rfl
  · unfold workerPost poolSettle
    cases coreCall rx fs req <;> rfl
  · unfold workerPost poolSettle
    cases coreCall rx fs req with
    | error e => simp
    | ok r => simp
  · unfold workerPost poolSettle
    cases coreCall rx fs req with
    | error e =>
      intro e₂ he
      simpa using he
    | ok r => intro e₂ he; cases he
  · unfold workerServe
    simp
  · unfold workerServe
    rw [List.map_map]
    have hfun : ((fun m : WireMsg => m.id) ∘
        fun m : Nat × Request => workerPost rx fs m.1 m.2) =
        (Prod.fst : Nat × Request → Nat) := by
      funext m
      show (workerPost rx fs m.1 m.2).id = m.1
      unfold workerPost
      cases coreCall rx fs m.2 <;> rfl
    rw [hfun]

/-- Claim C6 witness at a concrete store and request list. -/
theorem C6_reject_iff_dispatch_throws_witness :
    (workerPost (fun _ => none) ⟨[⟨0, "a.md", ["hi"]⟩]⟩ 5 (.unknown "zap")).id = 5 ∧
    (poolSettle (workerPost (fun _ => none) ⟨[⟨0, "a.md", ["hi"]⟩]⟩ 5 (.unknown "zap")) =
      match coreCall (fun _ => none) ⟨[⟨0, "a.md", ["hi"]⟩]⟩ (.unknown "zap") with
      | .ok r => .ok (some r)
      | .error e => .error e) ∧
    ((∃ e, poolSettle (workerPost (fun _ => none) ⟨[⟨0, "a.md", ["hi"]⟩]⟩ 5
        (.unknown "zap")) = .error e) ↔
      (∃ e, coreCall (fun _ => none) ⟨[⟨0, "a.md", ["hi"]⟩]⟩ (.unknown "zap") =
        .error e)) ∧
    (∀ e, poolSettle (workerPost (fun _ => none) ⟨[⟨0, "a.md", ["hi"]⟩]⟩ 5
        (.unknown "zap")) = .error e →
      coreCall (fun _ => none) ⟨[⟨0, "a.md", ["hi"]⟩]⟩ (.unknown "zap") = .error e) ∧
    (workerServe (fun _ => none) ⟨[⟨0, "a.md", ["hi"]⟩]⟩
      [(5, .unknown "zap"), (6, .docCount)]).length =
      [(5, Request.unknown "zap"), (6, Request.docCount)].length ∧
    (workerServe (fun _ => none) ⟨[⟨0, "a.md", ["hi"]⟩]⟩
      [(5, .unknown "zap"), (6, .docCount)]).map (fun m => m.id) =
      [(5, Request.unknown "zap"), (6, Request.docCount)].map Prod.fst :=
  C6_reject_iff_dispatch_throws (fun _ => none) ⟨[⟨0, "a.md", ["hi"]⟩]⟩ 5
    (.unknown "zap") [(5, .unknown "zap"), (6, .docCount)]

set_option maxRecDepth 4000 in
/-- Claim C7: on success, structured results are delivered deserialized
and text/scalar results raw: the worker hands back the `JSON.parse` of
the core's serialized string for grep, ls and toolDefinitions — the
original structured array value — and hands back the result of read
(line-numbered text) and documentCount (a number) unchanged. -/
theorem C7_structured_parsed_scalar_raw (rx : String → Option (String → Bool))
    (fs : MemexStore) :
    (∀ p g rs, memexGrep rx fs p g = .ok rs →
      coreCall rx fs (.grep p g) =
        .ok (.json (.arr (JsonItems.ofList (rs.map grepResultJson))))) ∧
    (∀ path, coreCall rx fs (.ls path) =
      .ok (.json (.arr (JsonItems.ofList ((memexLs fs path).map Json.str))))) ∧
    (coreCall rx fs .toolDefs = .ok (.json toolDefsJson)) ∧
    (∀ path off lim s, memexRead fs path off lim = .ok s →
      coreCall rx fs (.read path off lim) = .ok (.text s)) ∧
    (coreCall rx fs .docCount = .ok (.nat (documentCount fs))) := by
  refine ⟨?_, ?_, ?_, ?_, ?_⟩
  · intro p g rs h
    have hG : memexGrepStr rx fs p g =
        .ok (jsonRender (.arr (JsonItems.ofList (rs.map grepResultJson)))) := by
      unfold memexGrepStr
      rw [h]
    simp only [coreCall, hG, jsonParse_jsonRender]
  · intro path
    simp only [coreCall, memexLsStr, jsonParse_jsonRender]
  · simp only [coreCall, toolDefinitionsStr, jsonParse_jsonRender]
  · intro path off lim s h
    simp only [coreCall, h]
  · rfl

/-- Claim C7 witness at a concrete store. -/
theorem C7_structured_parsed_scalar_raw_witness :
    coreCall (fun _ => none) ⟨[⟨0, "a.md", ["hello", "world"]⟩]⟩
        (.grep "hello" none) =
      .ok (.json (.arr (JsonItems.ofList
        ([GrepResult.mk "a.md" 1 "hello"].map grepResultJson)))) ∧
    coreCall (fun _ => none) ⟨[⟨0, "a.md", ["hello", "world"]⟩]⟩
        (.read "a.md" none none) =
      .ok (.text "1  hello\n2  world") ∧
    coreCall (fun _ => none) ⟨[⟨0, "a.md", ["hello", "world"]⟩]⟩ .docCount =
      .ok (.nat (documentCount ⟨[⟨0, "a.md", ["hello", "world"]⟩]⟩)) :=
  ⟨(C7_structured_parsed_scalar_raw (fun _ => none)
      ⟨[⟨0, "a.md", ["hello", "world"]⟩]⟩).1 "hello" none
      [GrepResult.mk "a.md" 1 "hello"] (by decide),
   (C7_structured_parsed_scalar_raw (fun _ => none)
      ⟨[⟨0, "a.md", ["hello", "world"]⟩]⟩).2.2.2.1 "a.md" none none
      "1  hello\n2  world" (by decide),
   (C7_structured_parsed_scalar_raw (fun _ => none)
      ⟨[⟨0, "a.md", ["hello", "world"]⟩]⟩).2.2.2.2⟩

theorem resultLe_total (a b : GrepResult) : resultLe a b ∨ resultLe b a := by
  unfold resultLe byteLt
  cases hab : byteCmp a.path b.path with
  | lt => exact Or.inl (Or.inl rfl)
  | gt =>
    refine Or.inr (Or.inl ?_)
    have hs := byteCmp_swap a.path b.path
    rw [hab] at hs
    rw [← hs]
    decide
  | eq =>
    have hp : a.path = b.path := byteCmp_eq_iff.mp hab
    rcases Nat.le_total a.line b.line with h | h
    · exact Or.inl (Or.inr ⟨hp, h⟩)
    · exact Or.inr (Or.inr ⟨hp.symm, h⟩)

theorem resultLe_trans {a b c : GrepResult} :
    resultLe a b → resultLe b c → resultLe a c := by
  unfold resultLe byteLt
  rintro (hab | ⟨hab, hl1⟩) (hbc | ⟨hbc, hl2⟩)
  · exact Or.inl (byteCmp_trans_lt hab hbc)
  · left
    rw [← hbc]
    exact hab
  · left
    rw [hab]
    exact hbc
  · exact Or.inr ⟨hab.trans hbc, Nat.le_trans hl1 hl2⟩

instance : IsTotal GrepResult resultLe := ⟨resultLe_total⟩
instance : IsTrans GrepResult resultLe := ⟨fun _ _ _ => resultLe_trans⟩

/-- Claim C8: every successful `grep(pattern, glob?)` result is sorted by
path ascending then line ascending, and equals the first 100 entries of
the full sorted result set — the sorted permutation of everything the
query collected — with the cap applied after sorting: more than 100
matching lines yield exactly the first 100 of the full sorted set, never
a sample. -/
theorem C8_grep_sorted_then_capped (rx : String → Option (String → Bool))
    (st : MemexStore) (p : String) (g : Option String) (rs : List GrepResult)
    (h : memexGrep rx st p g = .ok rs) :
    ∃ mode, classify rx p = .ok mode ∧
      rs = (sortResults (collectResults st mode g)).take 100 ∧
      List.Sorted resultLe rs ∧
      rs.length ≤ 100 ∧
      (100 < (collectResults st mode g).length → rs.length = 100) ∧
      (sortResults (collectResults st mode g)).Perm (collectResults st mode g) ∧
      List.Sorted resultLe (sortResults (collectResults st mode g)) := by
  unfold memexGrep at h
  cases hc : classify rx p with
  | error e => rw [hc] at h; cases h
  | ok mode =>
    rw [hc] at h
    simp only [Except.ok.injEq] at h
    subst h
    refine ⟨mode, rfl, rfl, ?_, ?_, ?_, ?_, ?_⟩
    · exact List.Pairwise.sublist (List.take_sublist _ _)
        (List.sorted_insertionSort resultLe _)
    · exact List.length_take_le 100 _
    · intro hgt
      rw [List.length_take]
      have hlen : (sortResults (collectResults st mode g)).length =
          (collectResults st mode g).length :=
        (List.perm_insertionSort resultLe _).length_eq
      omega
    · exact List.perm_insertionSort resultLe _
    · exact List.sorted_insertionSort resultLe _

/-- Claim C8 witness at a concrete store and single-token query. -/
theorem C8_grep_sorted_then_capped_witness :
    ∃ mode, classify (fun _ => none) "hello" = .ok mode ∧
      [GrepResult.mk "a.md" 1 "hello"] =
        (sortResults (collectResults ⟨[⟨0, "a.md", ["hello", "world"]⟩]⟩ mode
          none)).take 100 ∧
      List.Sorted resultLe [GrepResult.mk "a.md" 1 "hello"] ∧
      [GrepResult.mk "a.md" 1 "hello"].length ≤ 100 ∧
      (100 < (collectResults ⟨[⟨0, "a.md", ["hello", "world"]⟩]⟩ mode
          none).length →
        [GrepResult.mk "a.md" 1 "hello"].length = 100) ∧
      (sortResults (collectResults ⟨[⟨0, "a.md", ["hello", "world"]⟩]⟩ mode
        none)).Perm
        (collectResults ⟨[⟨0, "a.md", ["hello", "world"]⟩]⟩ mode none) ∧
      List.Sorted resultLe
        (sortResults (collectResults ⟨[⟨0, "a.md", ["hello", "world"]⟩]⟩ mode
          none)) :=
  C8_grep_sorted_then_capped (fun _ => none) ⟨[⟨0, "a.md", ["hello", "world"]⟩]⟩
    "hello" none [GrepResult.mk "a.md" 1 "hello"] (by decide)
